import Mathlib

/-!
Formal model of the PowerPoint review pipeline (`pptx_agent.py`,
`correct_pptx.py`): the correction applier, the alignment analysis and the
bounded agent tool loop, together with theorems about the claims made by the
specification.  Strings are modelled as lists of characters; the document
tree keeps exactly the fields the modelled code reads or writes (shape name,
left position, text-frame flag, paragraphs and runs).  Formatting
attributes, speaker notes and tables are outside the modelled fragment:
no analysed property touches them.
-/

namespace Pptx

/- ## Python string primitives

`startsWith s pat` models `s.startswith(pat)` (equivalently, that `pat` is a
prefix of `s`); `strContains s pat` models the Python expression `pat in s`;
`replaceCore`/`pyReplace` model `s.replace(pat, rep)`, which replaces all
non-overlapping occurrences scanning from the left.  The recursions are
fuelled by `s.length` so that every definition is structural and hence
evaluable by `decide`/`rfl`. -/

def startsWith : List Char → List Char → Bool
  | _, [] => true
  | [], _ :: _ => false
  | c :: rest, p :: prest => c == p && startsWith rest prest

def strContains : List Char → List Char → Bool
  | [], pat => startsWith [] pat
  | c :: rest, pat => startsWith (c :: rest) pat || strContains rest pat

def replaceCoreF (p : Char) (ps rep : List Char) : Nat → List Char → List Char
  | _, [] => []
  | 0, s => s
  | fuel + 1, c :: rest =>
    if startsWith (c :: rest) (p :: ps) then
      rep ++ replaceCoreF p ps rep fuel (List.drop ps.length rest)
    else
      c :: replaceCoreF p ps rep fuel rest

def replaceCore (p : Char) (ps rep s : List Char) : List Char :=
  replaceCoreF p ps rep s.length s

/-- Replacement with an empty pattern: Python inserts `rep` before every
character and once at the end (`"ab".replace("", "-") == "-a-b-"`). -/
def emptyPatRep (rep : List Char) : List Char → List Char
  | [] => []
  | c :: rest => (c :: rep) ++ emptyPatRep rep rest

def pyReplace (s pat rep : List Char) : List Char :=
  match pat with
  | [] => rep ++ emptyPatRep rep s
  | p :: ps => replaceCore p ps rep s

/-- Leftmost non-overlapping decomposition of `s` along the pattern
`p :: ps`: the pieces between consecutive occurrences, in order.  This is the
decomposition `str.replace` works through; it is used to characterise the
replacement below. -/
def splitCoreF (p : Char) (ps : List Char) : Nat → List Char → List (List Char)
  | _, [] => [[]]
  | 0, s => [s]
  | fuel + 1, c :: rest =>
    if startsWith (c :: rest) (p :: ps) then
      [] :: splitCoreF p ps fuel (List.drop ps.length rest)
    else
      match splitCoreF p ps fuel rest with
      | [] => [[c]]
      | piece :: pieces => (c :: piece) :: pieces

def splitCore (p : Char) (ps s : List Char) : List (List Char) :=
  splitCoreF p ps s.length s

/-- Interleave a separator between consecutive pieces (no trailing
separator). -/
def joinWith (sep : List Char) : List (List Char) → List Char
  | [] => []
  | [x] => x
  | x :: y :: rest => x ++ sep ++ joinWith sep (y :: rest)

/- ## Python `int()` parsing

`pyToInt` models `int(text)` on strings: optional surrounding whitespace, an
optional sign, then a non-empty digit sequence in which single underscores
may separate digits; `none` models the `ValueError` path. -/

def digitsToNat (acc : Nat) : List Char → Nat
  | [] => acc
  | c :: rest => digitsToNat (acc * 10 + (c.toNat - 48)) rest

def pyDigitsGo : List Char → Option (List Char)
  | [] => some []
  | '_' :: rest =>
    match rest with
    | [] => none
    | d :: rest' => if d.isDigit then (pyDigitsGo rest').map (fun l => d :: l) else none
  | c :: rest => if c.isDigit then (pyDigitsGo rest).map (fun l => c :: l) else none

def pyDigits : List Char → Option (List Char)
  | [] => none
  | c :: rest => if c.isDigit then (pyDigitsGo rest).map (fun l => c :: l) else none

def stripWs (s : List Char) : List Char :=
  ((s.dropWhile Char.isWhitespace).reverse.dropWhile Char.isWhitespace).reverse

def pyToInt (s : String) : Option Int :=
  match stripWs s.data with
  | '+' :: rest => (pyDigits rest).map (fun ds => (digitsToNat 0 ds : Int))
  | '-' :: rest => (pyDigits rest).map (fun ds => -(digitsToNat 0 ds : Int))
  | t => (pyDigits t).map (fun ds => (digitsToNat 0 ds : Int))

/- ## Document model -/

structure Run where
  text : String
  deriving Repr, DecidableEq

structure Paragraph where
  runs : List Run
  deriving Repr, DecidableEq

structure Shape where
  name : String
  left : Int
  has_text_frame : Bool
  paragraphs : List Paragraph
  deriving Repr, DecidableEq

structure Slide where
  shapes : List Shape
  deriving Repr, DecidableEq

structure Document where
  slides : List Slide
  deriving Repr, DecidableEq

/- ## Corrections and the applier (`tool_apply_all_corrections`, document part) -/

structure Correction where
  slide_number : Int
  shape_name : String
  original_text : String
  corrected_text : String
  correction_type : String
  reasoning : String
  deriving Repr, DecidableEq

/-- One entry of the `applied` detail list built inside
`tool_apply_all_corrections`: one per alignment change of a shape, one per
run whose text was rewritten. -/
inductive AppliedDetail where
  | alignEdit (slide : Int) (shape : String)
  | textEdit (slide : Int) (ctype : String) (original : String) (corrected : String)
  deriving Repr, DecidableEq

/-- Per run: `if correction.original_text in run.text: run.text =
run.text.replace(original_text, corrected_text)`. -/
def applyToRun (c : Correction) (r : Run) : Run × List AppliedDetail :=
  if strContains r.text.data c.original_text.data then
    (⟨String.mk (pyReplace r.text.data c.original_text.data c.corrected_text.data)⟩,
     [.textEdit c.slide_number c.correction_type c.original_text c.corrected_text])
  else (r, [])

def applyRuns (c : Correction) : List Run → List Run × List AppliedDetail
  | [] => ([], [])
  | r :: rest =>
    ((applyToRun c r).1 :: (applyRuns c rest).1,
     (applyToRun c r).2 ++ (applyRuns c rest).2)

def applyParas (c : Correction) : List Paragraph → List Paragraph × List AppliedDetail
  | [] => ([], [])
  | pa :: rest =>
    (⟨(applyRuns c pa.runs).1⟩ :: (applyParas c rest).1,
     (applyRuns c pa.runs).2 ++ (applyParas c rest).2)

/-- Per shape: only shapes whose name equals `shape_name` are touched; an
`alignment` correction parses `corrected_text` as an integer and sets the
left position (`ValueError` skips silently); otherwise, if the shape has a
text frame, every run of every paragraph is processed. -/
def applyToShape (c : Correction) (s : Shape) : Shape × List AppliedDetail :=
  if s.name = c.shape_name then
    if c.correction_type = "alignment" then
      match pyToInt c.corrected_text with
      | some n => ({ s with left := n }, [.alignEdit c.slide_number c.shape_name])
      | none => (s, [])
    else if s.has_text_frame then
      ({ s with paragraphs := (applyParas c s.paragraphs).1 }, (applyParas c s.paragraphs).2)
    else (s, [])
  else (s, [])

def applyShapes (c : Correction) : List Shape → List Shape × List AppliedDetail
  | [] => ([], [])
  | s :: rest =>
    ((applyToShape c s).1 :: (applyShapes c rest).1,
     (applyToShape c s).2 ++ (applyShapes c rest).2)

def applyToSlide (c : Correction) (sl : Slide) : Slide × List AppliedDetail :=
  (⟨(applyShapes c sl.shapes).1⟩, (applyShapes c sl.shapes).2)

/-- Per correction: locate the slide by 1-based ordinal, silently skipping
out-of-range ordinals, and apply the correction to the slide's shapes. -/
def applyCorrectionToDoc (doc : Document) (c : Correction) : Document × List AppliedDetail :=
  let idx : Int := c.slide_number - 1
  if idx < 0 ∨ (doc.slides.length : Int) ≤ idx then (doc, [])
  else
    match doc.slides[idx.toNat]? with
    | none => (doc, [])
    | some slide =>
      (⟨doc.slides.set idx.toNat (applyToSlide c slide).1⟩, (applyToSlide c slide).2)

/-- The full pass over `state.pending_corrections`, accumulating the
`applied` detail list in processing order. -/
def applyAllCorrectionsDoc : Document → List Correction → Document × List AppliedDetail
  | doc, [] => (doc, [])
  | doc, c :: rest =>
    ((applyAllCorrectionsDoc (applyCorrectionToDoc doc c).1 rest).1,
     (applyCorrectionToDoc doc c).2 ++
       (applyAllCorrectionsDoc (applyCorrectionToDoc doc c).1 rest).2)

/- ## Alignment analysis (`tool_analyze_alignment`, `find_most_common_position`)

The Python code counts left positions in a `dict` (insertion-ordered, keyed
by first appearance) and takes `max(items, key=count)`, which returns the
first item attaining the maximal count.  `addPos` models one dict update,
`buildCounts` the counting loop, `maxByCount` the `max` call. -/

def countVal (v : Int) : List Int → Nat
  | [] => 0
  | x :: rest => (if x = v then 1 else 0) + countVal v rest

def firstIdx (v : Int) : List Int → Nat
  | [] => 0
  | x :: rest => if x = v then 0 else firstIdx v rest + 1

def addPos : List (Int × Nat) → Int → List (Int × Nat)
  | [], v => [(v, 1)]
  | (k, n) :: rest, v =>
    if k = v then (k, n + 1) :: rest else (k, n) :: addPos rest v

def buildCounts : List (Int × Nat) → List Int → List (Int × Nat)
  | acc, [] => acc
  | acc, v :: rest => buildCounts (addPos acc v) rest

/-- Python `max(..., key=lambda x: x[1])`: keeps the earliest element among
those with the maximal count (the update condition is strict). -/
def maxByCount : (Int × Nat) → List (Int × Nat) → (Int × Nat)
  | best, [] => best
  | best, e :: rest => maxByCount (if e.2 > best.2 then e else best) rest

/-- `find_most_common_position` of `correct_pptx.py`. -/
def find_most_common_position (positions : List Int) : Option Int :=
  if positions.isEmpty then none
  else
    match buildCounts [] positions with
    | [] => none
    | e :: rest => some (maxByCount e rest).1

structure TitlePos where
  slide : Nat
  name : String
  left : Int
  deriving Repr, DecidableEq

def titlesOfSlide (i : Nat) (sl : Slide) : List TitlePos :=
  (sl.shapes.filter (fun sh => strContains sh.name.data "Title".data)).map
    (fun sh => ⟨i, sh.name, sh.left⟩)

def collectTitlesGo : Nat → List Slide → List TitlePos
  | _, [] => []
  | i, sl :: rest => titlesOfSlide (i + 1) sl ++ collectTitlesGo (i + 1) rest

/-- Shapes whose name contains `"Title"`, with their slide ordinal and left
position, in slide/shape order. -/
def collectTitles (doc : Document) : List TitlePos :=
  collectTitlesGo 0 doc.slides

inductive AlignResult where
  | noTitles
  | report (standard : Int) (misaligned : List TitlePos)
  deriving Repr, DecidableEq

/-- `tool_analyze_alignment`: the most common title left position becomes the
standard, any title not at it is reported as misaligned. -/
def tool_analyze_alignment (doc : Document) : AlignResult :=
  let titles := collectTitles doc
  if titles.isEmpty then .noTitles
  else
    match buildCounts [] (titles.map (fun t => t.left)) with
    | [] => .noTitles
    | e :: rest =>
      let std := (maxByCount e rest).1
      .report std (titles.filter (fun t => t.left ≠ std))

/- ## Content extraction (`tool_extract_slide_content`) -/

structure ParaInfo where
  text : String
  runs : List String
  deriving Repr, DecidableEq

structure ShapeInfo where
  name : String
  left : Int
  text_content : List ParaInfo
  deriving Repr, DecidableEq

structure SlideContent where
  slide_number : Nat
  shapes : List ShapeInfo
  notes : String
  deriving Repr, DecidableEq

def paraText (pa : Paragraph) : String :=
  String.mk ((pa.runs.map (fun r => r.text.data)).flatten)

def extractShape (sh : Shape) : List ParaInfo :=
  (sh.paragraphs.filter (fun pa => (paraText pa).trim ≠ "")).map
    (fun pa =>
      ⟨paraText pa, (pa.runs.filter (fun r => r.text.trim ≠ "")).map (fun r => r.text)⟩)

def extractShapes : List Shape → List ShapeInfo
  | [] => []
  | sh :: rest =>
    if sh.has_text_frame then
      let tc := extractShape sh
      if tc.isEmpty then extractShapes rest
      else ⟨sh.name, sh.left, tc⟩ :: extractShapes rest
    else extractShapes rest

def extractSlides : Nat → List Slide → List SlideContent
  | _, [] => []
  | i, sl :: rest => ⟨i + 1, extractShapes sl.shapes, ""⟩ :: extractSlides (i + 1) rest

def extractContent (doc : Document) : List SlideContent :=
  extractSlides 0 doc.slides

/- ## Tool-call plumbing

Tool-call arguments arrive as a JSON object (the model-collaborator contract
fixes them to be JSON-encoded); `Value` covers the payload kinds the six
declared schemas use.  A missing key raises (`KeyError`), modelled by
`Except.error`; the loop performs no schema validation of its own. -/

inductive Value where
  | vInt (n : Int)
  | vStr (s : String)
  deriving Repr, DecidableEq

def argLookup : List (String × Value) → String → Option Value
  | [], _ => none
  | (k, v) :: rest, key => if k = key then some v else argLookup rest key

structure ToolCall where
  id : String
  fname : String
  args : List (String × Value)
  deriving Repr, DecidableEq

structure ModelResponse where
  content : Option String
  tool_calls : List ToolCall
  deriving Repr, DecidableEq

inductive Err where
  | keyError (k : String)
  | typeError
  | fileNotFound (p : String)
  | saveFailed
  deriving Repr, DecidableEq

def getArg (args : List (String × Value)) (k : String) : Except Err Value :=
  match argLookup args k with
  | some v => .ok v
  | none => .error (.keyError k)

inductive ToolResult where
  | extractRes (slides : List SlideContent) (total : Nat)
  | analysis (raw : String)
  | align (r : AlignResult)
  | added (slide : Int) (shape : String) (ctype : String) (original : String) (corrected : String)
  | noCorrections
  | applySuccess (count : Nat) (details : List AppliedDetail) (output : String)
  | complete (total : Nat) (output : String)
  | unknownTool (name : String)
  | toolNotFound (name : String)
  deriving Repr, DecidableEq

inductive MsgContent where
  | text (s : String)
  | assistant (resp : ModelResponse)
  | toolRes (r : ToolResult)
  deriving Repr, DecidableEq

structure Message where
  role : String
  tool_call_id : Option String
  content : MsgContent
  deriving Repr, DecidableEq

/- ## Agent state and environment -/

structure AgentState where
  presentation_path : String
  output_path : String
  slides_content : List SlideContent
  pending_corrections : List Correction
  applied_corrections : List Correction
  current_task : String
  iteration : Nat
  is_complete : Bool
  messages : List Message
  deriving Repr, DecidableEq

/-- The file system seen by `Presentation(path)` / `prs.save(path)`. -/
def FS : Type := List (String × Document)

def fsLookup : FS → String → Option Document
  | [], _ => none
  | (q, e) :: rest, p => if q = p then some e else fsLookup rest p

def fsWrite : FS → String → Document → FS
  | [], p, d => [(p, d)]
  | (q, e) :: rest, p, d =>
    if q = p then (q, d) :: rest else (q, e) :: fsWrite rest p d

/-- External collaborators: whether `prs.save` succeeds, and the
model-completion call behind `analyze_text_for_errors` (its verdict is
passed through verbatim). -/
structure Env where
  saveOk : Bool
  analyze : Value → Value → String

/- ## The six tools -/

def tool_extract_slide_content (st : AgentState) (fs : FS) :
    Except Err (AgentState × FS × ToolResult) :=
  match fsLookup fs st.presentation_path with
  | none => .error (.fileNotFound st.presentation_path)
  | some doc =>
    .ok ({ st with slides_content := extractContent doc }, fs,
         .extractRes (extractContent doc) doc.slides.length)

def tool_add_correction (st : AgentState) (sn : Int)
    (sh orig corr ctype reas : String) : AgentState × ToolResult :=
  ({ st with pending_corrections :=
       st.pending_corrections ++ [⟨sn, sh, orig, corr, ctype, reas⟩] },
   .added sn sh ctype orig corr)

/-- `tool_apply_all_corrections`: no-op on an empty pending list; otherwise
re-open the input document, apply every pending correction, save to the
output path (failure raises, with the state untouched), then move pending to
applied and report one count per performed edit. -/
def tool_apply_all_corrections (env : Env) (st : AgentState) (fs : FS) :
    Except Err (AgentState × FS × ToolResult) :=
  if st.pending_corrections = [] then .ok (st, fs, .noCorrections)
  else
    match fsLookup fs st.presentation_path with
    | none => .error (.fileNotFound st.presentation_path)
    | some doc =>
      if env.saveOk then
        .ok ({ st with
                 applied_corrections := st.applied_corrections ++ st.pending_corrections,
                 pending_corrections := [] },
             fsWrite fs st.output_path (applyAllCorrectionsDoc doc st.pending_corrections).1,
             .applySuccess (applyAllCorrectionsDoc doc st.pending_corrections).2.length
                           (applyAllCorrectionsDoc doc st.pending_corrections).2 st.output_path)
      else .error .saveFailed

def tool_mark_complete (st : AgentState) : AgentState × ToolResult :=
  ({ st with is_complete := true },
   .complete st.applied_corrections.length st.output_path)

/- ## Registry and dispatch -/

def toolNames : List String :=
  ["extract_slide_content", "analyze_text_for_errors", "analyze_alignment",
   "add_correction", "apply_all_corrections", "mark_complete"]

/-- One tool invocation as performed by the loop body: registry membership
check, then direct argument access (no schema validation) and the call.
An unregistered name produces an error result instead of raising. -/
def dispatch (env : Env) (tc : ToolCall) (st : AgentState) (fs : FS) :
    Except Err (AgentState × FS × ToolResult) :=
  if tc.fname ∈ toolNames then
    if tc.fname = "extract_slide_content" then
      tool_extract_slide_content st fs
    else if tc.fname = "analyze_alignment" then
      match fsLookup fs st.presentation_path with
      | none => .error (.fileNotFound st.presentation_path)
      | some doc => .ok (st, fs, .align (tool_analyze_alignment doc))
    else if tc.fname = "apply_all_corrections" then
      tool_apply_all_corrections env st fs
    else if tc.fname = "mark_complete" then
      .ok ((tool_mark_complete st).1, fs, (tool_mark_complete st).2)
    else if tc.fname = "analyze_text_for_errors" then
      match getArg tc.args "slide_number" with
      | .error e => .error e
      | .ok v1 =>
        match getArg tc.args "text" with
        | .error e => .error e
        | .ok v2 => .ok (st, fs, .analysis (env.analyze v1 v2))
    else if tc.fname = "add_correction" then
      match getArg tc.args "slide_number" with
      | .error e => .error e
      | .ok v1 =>
        match getArg tc.args "shape_name" with
        | .error e => .error e
        | .ok v2 =>
          match getArg tc.args "original_text" with
          | .error e => .error e
          | .ok v3 =>
            match getArg tc.args "corrected_text" with
            | .error e => .error e
            | .ok v4 =>
              match getArg tc.args "correction_type" with
              | .error e => .error e
              | .ok v5 =>
                match getArg tc.args "reasoning" with
                | .error e => .error e
                | .ok v6 =>
                  match v1, v2, v3, v4, v5, v6 with
                  | .vInt sn, .vStr sh, .vStr orig, .vStr corr, .vStr ct, .vStr rs =>
                    .ok ((tool_add_correction st sn sh orig corr ct rs).1, fs,
                         (tool_add_correction st sn sh orig corr ct rs).2)
                  | _, _, _, _, _, _ => .error .typeError
    else .ok (st, fs, .unknownTool tc.fname)
  else .ok (st, fs, .toolNotFound tc.fname)

def toolMsg (id : String) (r : ToolResult) : Message :=
  ⟨"tool", some id, .toolRes r⟩

def asstMsg (resp : ModelResponse) : Message :=
  ⟨"assistant", none, .assistant resp⟩

/-- Execute an iteration's tool calls sequentially, appending each result to
the transcript keyed by the call identifier. -/
def execCalls (env : Env) : List ToolCall → AgentState → FS →
    Except Err (AgentState × FS)
  | [], st, fs => .ok (st, fs)
  | tc :: rest, st, fs =>
    match dispatch env tc st fs with
    | .error e => .error e
    | .ok (st', fs', r) =>
      execCalls env rest { st' with messages := st'.messages ++ [toolMsg tc.id r] } fs'

/- ## The agent loop (`run_agent`) -/

def MAX_ITERATIONS : Nat := 20

/-- One pass of the `while` body: bump the iteration counter, query the
model on the current transcript, append the assistant message, execute the
returned tool calls in order. -/
def loopIter (oracle : List Message → ModelResponse) (env : Env)
    (st : AgentState) (fs : FS) : Except Err (AgentState × FS) :=
  let resp := oracle st.messages
  execCalls env resp.tool_calls
    { st with iteration := st.iteration + 1,
              messages := st.messages ++ [asstMsg resp] } fs

/-- The loop `while not state.is_complete and state.iteration <
MAX_ITERATIONS`.  The fuel argument only bounds the recursion: each body
pass increments `iteration` by exactly one, so with fuel `MAX_ITERATIONS -
iteration` the zero-fuel clause is reached only when the guard is false as
well, returning the same state the `while` loop would. -/
def agentLoopGo (oracle : List Message → ModelResponse) (env : Env) :
    Nat → AgentState → FS → Except Err (AgentState × FS)
  | 0, st, fs => .ok (st, fs)
  | fuel + 1, st, fs =>
    if st.is_complete = false ∧ st.iteration < MAX_ITERATIONS then
      match loopIter oracle env st fs with
      | .error e => .error e
      | .ok (st', fs') => agentLoopGo oracle env fuel st' fs'
    else .ok (st, fs)

def agentLoop (oracle : List Message → ModelResponse) (env : Env)
    (st : AgentState) (fs : FS) : Except Err (AgentState × FS) :=
  agentLoopGo oracle env (MAX_ITERATIONS - st.iteration) st fs

def SYSTEM_PROMPT : String :=
  "You are a PowerPoint Review Agent. Your job is to review and correct PowerPoint presentations."

def initState (p out : String) : AgentState :=
  { presentation_path := p
    output_path := out
    slides_content := []
    pending_corrections := []
    applied_corrections := []
    current_task := "analyze"
    iteration := 0
    is_complete := false
    messages :=
      [⟨"system", none, .text SYSTEM_PROMPT⟩,
       ⟨"user", none,
        .text ("Please review and correct the PowerPoint presentation at: " ++ p ++
               "\nSave the corrected version to: " ++ out)⟩] }

structure SummaryDetail where
  slide : Int
  ctype : String
  original : String
  corrected : String
  deriving Repr, DecidableEq

structure Summary where
  iterations : Nat
  corrections : Nat
  output_file : String
  details : List SummaryDetail
  deriving Repr, DecidableEq

def mkSummary (st : AgentState) : Summary :=
  ⟨st.iteration, st.applied_corrections.length, st.output_path,
   st.applied_corrections.map
     (fun c => ⟨c.slide_number, c.correction_type, c.original_text, c.corrected_text⟩)⟩

/-- `run_agent`: initialise the state, run the loop, return the summary.
An exception escaping the loop propagates (no summary). -/
def runAgent (oracle : List Message → ModelResponse) (env : Env)
    (p out : String) (fs : FS) : Except Err Summary :=
  match agentLoop oracle env (initState p out) fs with
  | .error e => .error e
  | .ok (st, _) => .ok (mkSummary st)

/-- The model never requests `mark_complete` on any transcript. -/
def neverCompletes (oracle : List Message → ModelResponse) : Prop :=
  ∀ msgs tc, tc ∈ (oracle msgs).tool_calls → tc.fname ≠ "mark_complete"

/-- A tool call is well formed when the arguments the loop will access are
present with the kinds the registry schema declares (trivial for the no-arg
tools and for unregistered names). -/
def wellFormedCallB (tc : ToolCall) : Bool :=
  if tc.fname = "analyze_text_for_errors" then
    (match argLookup tc.args "slide_number" with
     | some (.vInt _) => true
     | _ => false) &&
    (match argLookup tc.args "text" with
     | some (.vStr _) => true
     | _ => false)
  else if tc.fname = "add_correction" then
    (match argLookup tc.args "slide_number" with
     | some (.vInt _) => true
     | _ => false) &&
    (match argLookup tc.args "shape_name" with
     | some (.vStr _) => true
     | _ => false) &&
    (match argLookup tc.args "original_text" with
     | some (.vStr _) => true
     | _ => false) &&
    (match argLookup tc.args "corrected_text" with
     | some (.vStr _) => true
     | _ => false) &&
    (match argLookup tc.args "correction_type" with
     | some (.vStr _) => true
     | _ => false) &&
    (match argLookup tc.args "reasoning" with
     | some (.vStr _) => true
     | _ => false)
  else true

def wellFormedCalls (oracle : List Message → ModelResponse) : Prop :=
  ∀ msgs tc, tc ∈ (oracle msgs).tool_calls → wellFormedCallB tc = true

/- ## Lemmas about the string primitives -/

theorem startsWith_append (pat t : List Char) :
    ∀ s, startsWith s pat = true → startsWith (s ++ t) pat = true := by
  induction pat with
  | nil => intro s _; cases s <;> simp [startsWith]
  | cons p ps ih =>
    intro s h
    cases s with
    | nil => simp [startsWith] at h
    | cons c rest =>
      simp only [startsWith, Bool.and_eq_true] at h
      simp only [List.cons_append, startsWith, Bool.and_eq_true]
      exact ⟨h.1, ih rest h.2⟩

theorem startsWith_decomp :
    ∀ pat s, startsWith s pat = true → s = pat ++ List.drop pat.length s := by
  intro pat
  induction pat with
  | nil => intro s _; simp
  | cons p ps ih =>
    intro s h
    cases s with
    | nil => simp [startsWith] at h
    | cons c rest =>
      simp only [startsWith, Bool.and_eq_true, beq_iff_eq] at h
      have hr := ih rest h.2
      simp only [List.length_cons, List.cons_append, List.drop_succ_cons]
      rw [h.1]
      exact congrArg (p :: ·) hr

theorem replaceCoreF_irrel (p : Char) (ps rep : List Char) :
    ∀ f1 f2 s, s.length ≤ f1 → s.length ≤ f2 →
      replaceCoreF p ps rep f1 s = replaceCoreF p ps rep f2 s := by
  intro f1
  induction f1 with
  | zero =>
    intro f2 s h1 _
    have : s = [] := List.length_eq_zero.mp (Nat.le_zero.mp h1)
    subst this
    cases f2 <;> rfl
  | succ f1 ih =>
    intro f2 s h1 h2
    cases s with
    | nil => cases f2 <;> rfl
    | cons c rest =>
      cases f2 with
      | zero => simp at h2
      | succ f2 =>
        simp only [replaceCoreF]
        by_cases hb : startsWith (c :: rest) (p :: ps) = true
        · rw [if_pos hb, if_pos hb]
          have hd : (List.drop ps.length rest).length ≤ f1 := by
            simp only [List.length_drop]
            simp only [List.length_cons] at h1
            omega
          have hd2 : (List.drop ps.length rest).length ≤ f2 := by
            simp only [List.length_drop]
            simp only [List.length_cons] at h2
            omega
          rw [ih f2 _ hd hd2]
        · rw [if_neg hb, if_neg hb]
          have hr : rest.length ≤ f1 := by
            simp only [List.length_cons] at h1; omega
          have hr2 : rest.length ≤ f2 := by
            simp only [List.length_cons] at h2; omega
          rw [ih f2 _ hr hr2]

theorem splitCoreF_irrel (p : Char) (ps : List Char) :
    ∀ f1 f2 s, s.length ≤ f1 → s.length ≤ f2 →
      splitCoreF p ps f1 s = splitCoreF p ps f2 s := by
  intro f1
  induction f1 with
  | zero =>
    intro f2 s h1 _
    have : s = [] := List.length_eq_zero.mp (Nat.le_zero.mp h1)
    subst this
    cases f2 <;> rfl
  | succ f1 ih =>
    intro f2 s h1 h2
    cases s with
    | nil => cases f2 <;> rfl
    | cons c rest =>
      cases f2 with
      | zero => simp at h2
      | succ f2 =>
        simp only [splitCoreF]
        by_cases hb : startsWith (c :: rest) (p :: ps) = true
        · rw [if_pos hb, if_pos hb]
          have hd : (List.drop ps.length rest).length ≤ f1 := by
            simp only [List.length_drop]
            simp only [List.length_cons] at h1
            omega
          have hd2 : (List.drop ps.length rest).length ≤ f2 := by
            simp only [List.length_drop]
            simp only [List.length_cons] at h2
            omega
          rw [ih f2 _ hd hd2]
        · rw [if_neg hb, if_neg hb]
          have hr : rest.length ≤ f1 := by
            simp only [List.length_cons] at h1; omega
          have hr2 : rest.length ≤ f2 := by
            simp only [List.length_cons] at h2; omega
          rw [ih f2 _ hr hr2]

theorem replaceCore_nil (p : Char) (ps rep : List Char) :
    replaceCore p ps rep [] = [] := rfl

theorem replaceCore_cons (p : Char) (ps rep : List Char) (c : Char) (rest : List Char) :
    replaceCore p ps rep (c :: rest) =
      if startsWith (c :: rest) (p :: ps) then
        rep ++ replaceCore p ps rep (List.drop ps.length rest)
      else c :: replaceCore p ps rep rest := by
  show replaceCoreF p ps rep (c :: rest).length (c :: rest) = _
  simp only [List.length_cons, replaceCoreF]
  by_cases hb : startsWith (c :: rest) (p :: ps) = true
  · rw [if_pos hb, if_pos hb]
    rw [replaceCoreF_irrel p ps rep rest.length (List.drop ps.length rest).length]
    · rfl
    · simp only [List.length_drop]; omega
    · exact Nat.le_refl _
  · rw [if_neg hb, if_neg hb]
    rfl

theorem splitCore_nil (p : Char) (ps : List Char) :
    splitCore p ps [] = [[]] := rfl

theorem splitCore_cons (p : Char) (ps : List Char) (c : Char) (rest : List Char) :
    splitCore p ps (c :: rest) =
      if startsWith (c :: rest) (p :: ps) then
        [] :: splitCore p ps (List.drop ps.length rest)
      else
        match splitCore p ps rest with
        | [] => [[c]]
        | piece :: pieces => (c :: piece) :: pieces := by
  show splitCoreF p ps (c :: rest).length (c :: rest) = _
  simp only [List.length_cons, splitCoreF]
  by_cases hb : startsWith (c :: rest) (p :: ps) = true
  · rw [if_pos hb, if_pos hb]
    rw [splitCoreF_irrel p ps rest.length (List.drop ps.length rest).length]
    · rfl
    · simp only [List.length_drop]; omega
    · exact Nat.le_refl _
  · rw [if_neg hb, if_neg hb]
    rfl

/-- The split always yields at least one piece, and the first piece is a
prefix of the input. -/
theorem splitCore_head (p : Char) (ps : List Char) :
    ∀ s, ∃ piece pieces t, splitCore p ps s = piece :: pieces ∧ piece ++ t = s := by
  intro s
  match s with
  | [] => exact ⟨[], [], [], splitCore_nil p ps, rfl⟩
  | c :: rest =>
    rw [splitCore_cons]
    by_cases hb : startsWith (c :: rest) (p :: ps) = true
    · rw [if_pos hb]
      exact ⟨[], _, c :: rest, rfl, rfl⟩
    · rw [if_neg hb]
      obtain ⟨piece, pieces, t, heq, hpre⟩ := splitCore_head p ps rest
      rw [heq]
      exact ⟨c :: piece, pieces, t, rfl, by simp [hpre]⟩
termination_by s => s.length
decreasing_by
  simp only [List.length_cons]
  omega

/-- `str.replace` is the interleaving of the replacement between the pieces
of the leftmost non-overlapping decomposition. -/
theorem replaceCore_eq_joinWith (p : Char) (ps rep : List Char) :
    ∀ s, replaceCore p ps rep s = joinWith rep (splitCore p ps s) := by
  intro s
  match s with
  | [] => rfl
  | c :: rest =>
    rw [replaceCore_cons, splitCore_cons]
    by_cases hb : startsWith (c :: rest) (p :: ps) = true
    · rw [if_pos hb, if_pos hb]
      obtain ⟨piece, pieces, t, heq, _⟩ := splitCore_head p ps (List.drop ps.length rest)
      rw [replaceCore_eq_joinWith p ps rep (List.drop ps.length rest), heq]
      simp [joinWith]
    · rw [if_neg hb, if_neg hb]
      obtain ⟨piece, pieces, t, heq, _⟩ := splitCore_head p ps rest
      rw [replaceCore_eq_joinWith p ps rep rest, heq]
      cases pieces with
      | nil => simp [joinWith]
      | cons q qs => simp [joinWith]
termination_by s => s.length
decreasing_by
  · simp only [List.length_cons, List.length_drop]; omega
  · simp only [List.length_cons]; omega

/-- Joining the pieces back with the pattern itself reconstructs the
original string: the replacement changes nothing outside the replaced
occurrences. -/
theorem joinWith_splitCore (p : Char) (ps : List Char) :
    ∀ s, joinWith (p :: ps) (splitCore p ps s) = s := by
  intro s
  match s with
  | [] => rfl
  | c :: rest =>
    rw [splitCore_cons]
    by_cases hb : startsWith (c :: rest) (p :: ps) = true
    · rw [if_pos hb]
      obtain ⟨piece, pieces, t, heq, _⟩ := splitCore_head p ps (List.drop ps.length rest)
      have hrec := joinWith_splitCore p ps (List.drop ps.length rest)
      rw [heq] at hrec ⊢
      have hdec := startsWith_decomp (p :: ps) (c :: rest) hb
      simp only [List.length_cons, List.drop_succ_cons] at hdec
      calc joinWith (p :: ps) ([] :: piece :: pieces)
        = (p :: ps) ++ joinWith (p :: ps) (piece :: pieces) := by simp [joinWith]
        _ = (p :: ps) ++ List.drop ps.length rest := by rw [hrec]
        _ = c :: rest := hdec.symm
    · rw [if_neg hb]
      obtain ⟨piece, pieces, t, heq, _⟩ := splitCore_head p ps rest
      have hrec := joinWith_splitCore p ps rest
      rw [heq] at hrec ⊢
      cases pieces with
      | nil => simp only [joinWith] at hrec ⊢; rw [hrec]
      | cons q qs =>
        simp only [joinWith] at hrec ⊢
        simp only [List.cons_append, List.append_assoc] at hrec ⊢
        rw [hrec]
termination_by s => s.length
decreasing_by
  · simp only [List.length_cons, List.length_drop]; omega
  · simp only [List.length_cons]; omega

/-- No piece of the decomposition contains the pattern: every occurrence is
consumed by the split, so the replacement replaces all of them. -/
theorem splitCore_no_pat (p : Char) (ps : List Char) :
    ∀ s, ∀ piece ∈ splitCore p ps s, strContains piece (p :: ps) = false := by
  intro s
  match s with
  | [] =>
    intro piece hp
    rw [splitCore_nil] at hp
    simp only [List.mem_singleton] at hp
    subst hp
    rfl
  | c :: rest =>
    intro piece hp
    rw [splitCore_cons] at hp
    by_cases hb : startsWith (c :: rest) (p :: ps) = true
    · rw [if_pos hb] at hp
      rcases List.mem_cons.mp hp with h | h
      · subst h; rfl
      · exact splitCore_no_pat p ps (List.drop ps.length rest) piece h
    · rw [if_neg hb] at hp
      obtain ⟨piece0, pieces0, t, heq, hpre⟩ := splitCore_head p ps rest
      rw [heq] at hp
      rcases List.mem_cons.mp hp with h | h
      · subst h
        have h0 : strContains piece0 (p :: ps) = false :=
          splitCore_no_pat p ps rest piece0 (by rw [heq]; exact List.mem_cons_self _ _)
        simp only [strContains, Bool.or_eq_false_iff]
        constructor
        · by_contra hcon
          simp only [Bool.not_eq_false] at hcon
          have : startsWith ((c :: piece0) ++ t) (p :: ps) = true :=
            startsWith_append (p :: ps) t (c :: piece0) hcon
          rw [List.cons_append, hpre] at this
          exact hb this
        · exact h0
      · exact splitCore_no_pat p ps rest piece (by rw [heq]; exact List.mem_cons_of_mem _ h)
termination_by s => s.length
decreasing_by
  · simp only [List.length_cons, List.length_drop]; omega
  · simp only [List.length_cons]; omega
  · simp only [List.length_cons]; omega

/- ## Lemmas about the applier -/

theorem list_set_self {α : Type} :
    ∀ (l : List α) (n : Nat) (x : α), l[n]? = some x → l.set n x = l := by
  intro l
  induction l with
  | nil => intro n x h; simp at h
  | cons a rest ih =>
    intro n x h
    cases n with
    | zero =>
      simp only [List.getElem?_cons_zero, Option.some.injEq] at h
      simp [List.set, h]
    | succ n =>
      simp only [List.getElem?_cons_succ] at h
      simp only [List.set]
      rw [ih n x h]

theorem applyRuns_fst (c : Correction) :
    ∀ rs : List Run, (applyRuns c rs).1 = rs.map (fun r => (applyToRun c r).1) := by
  intro rs
  induction rs with
  | nil => rfl
  | cons r rest ih => simp [applyRuns, ih]

theorem applyParas_fst (c : Correction) :
    ∀ ps : List Paragraph,
      (applyParas c ps).1 =
        ps.map (fun pa => Paragraph.mk (pa.runs.map (fun r => (applyToRun c r).1))) := by
  intro ps
  induction ps with
  | nil => rfl
  | cons pa rest ih => simp [applyParas, ih, applyRuns_fst]

theorem applyShapes_fst (c : Correction) :
    ∀ ss : List Shape, (applyShapes c ss).1 = ss.map (fun s => (applyToShape c s).1) := by
  intro ss
  induction ss with
  | nil => rfl
  | cons s rest ih => simp [applyShapes, ih]

theorem applyToShape_nomatch (c : Correction) (s : Shape)
    (h : s.name ≠ c.shape_name) : applyToShape c s = (s, []) := by
  simp [applyToShape, h]

/-- An alignment correction whose value does not parse as an integer leaves
every shape unchanged. -/
theorem applyToShape_alignFail (c : Correction) (s : Shape)
    (hty : c.correction_type = "alignment") (hparse : pyToInt c.corrected_text = none) :
    applyToShape c s = (s, []) := by
  unfold applyToShape
  by_cases hn : s.name = c.shape_name
  · rw [if_pos hn, if_pos hty, hparse]
  · rw [if_neg hn]

theorem applyShapes_id (c : Correction) (h : ∀ s : Shape, applyToShape c s = (s, [])) :
    ∀ ss : List Shape, applyShapes c ss = (ss, []) := by
  intro ss
  induction ss with
  | nil => rfl
  | cons s rest ih => simp [applyShapes, h s, ih]

/-- Out-of-range slide ordinals are skipped: the document and the detail
list are untouched. -/
theorem applyCorrectionToDoc_skip_range (doc : Document) (c : Correction)
    (h : c.slide_number - 1 < 0 ∨ (doc.slides.length : Int) ≤ c.slide_number - 1) :
    applyCorrectionToDoc doc c = (doc, []) := by
  unfold applyCorrectionToDoc
  rw [if_pos h]

/-- An alignment correction with an unparsable value is skipped: the
document and the detail list are untouched. -/
theorem applyCorrectionToDoc_skip_align (doc : Document) (c : Correction)
    (hty : c.correction_type = "alignment") (hparse : pyToInt c.corrected_text = none) :
    applyCorrectionToDoc doc c = (doc, []) := by
  unfold applyCorrectionToDoc
  by_cases h : c.slide_number - 1 < 0 ∨ (doc.slides.length : Int) ≤ c.slide_number - 1
  · rw [if_pos h]
  · rw [if_neg h]
    cases hs : doc.slides[(c.slide_number - 1).toNat]? with
    | none => rfl
    | some slide =>
      have hid : applyToSlide c slide = (slide, []) := by
        unfold applyToSlide
        rw [applyShapes_id c (fun s => applyToShape_alignFail c s hty hparse)]
      simp only [hid]
      rw [list_set_self doc.slides _ slide hs]

theorem applyCorrectionToDoc_length (doc : Document) (c : Correction) :
    (applyCorrectionToDoc doc c).1.slides.length = doc.slides.length := by
  unfold applyCorrectionToDoc
  by_cases h : c.slide_number - 1 < 0 ∨ (doc.slides.length : Int) ≤ c.slide_number - 1
  · rw [if_pos h]
  · rw [if_neg h]
    cases hs : doc.slides[(c.slide_number - 1).toNat]? with
    | none => rfl
    | some slide => simp [List.length_set]

/-- A correction that is skipped (either reason) can be removed from the
pending list without changing the result of the whole pass. -/
theorem applyAllCorrectionsDoc_skip (c : Correction)
    (hc : ∀ doc' : Document, applyCorrectionToDoc doc' c = (doc', [])) :
    ∀ (l1 l2 : List Correction) (doc : Document),
      applyAllCorrectionsDoc doc (l1 ++ c :: l2) = applyAllCorrectionsDoc doc (l1 ++ l2) := by
  intro l1
  induction l1 with
  | nil =>
    intro l2 doc
    simp only [List.nil_append, applyAllCorrectionsDoc]
    simp [hc doc]
  | cons a l1 ih =>
    intro l2 doc
    simp only [List.cons_append, applyAllCorrectionsDoc, List.append_eq]
    rw [ih l2 (applyCorrectionToDoc doc a).1]

/- ## Lemmas about the position counting (`buildCounts`, `maxByCount`) -/

theorem countVal_append (v : Int) :
    ∀ s t, countVal v (s ++ t) = countVal v s + countVal v t := by
  intro s t
  induction s with
  | nil => simp [countVal]
  | cons x rest ih => simp [countVal, ih]; omega

theorem countVal_eq_zero_of_not_mem (v : Int) :
    ∀ s, v ∉ s → countVal v s = 0 := by
  intro s
  induction s with
  | nil => intro _; rfl
  | cons x rest ih =>
    intro h
    have hx : x ≠ v := fun he => h (he ▸ List.mem_cons_self x rest)
    simp only [countVal, if_neg hx, Nat.zero_add]
    exact ih (fun hm => h (List.mem_cons_of_mem x hm))

theorem firstIdx_append_left (v : Int) :
    ∀ s t, v ∈ s → firstIdx v (s ++ t) = firstIdx v s := by
  intro s t
  induction s with
  | nil => intro h; simp at h
  | cons x rest ih =>
    intro h
    by_cases hx : x = v
    · simp [firstIdx, hx]
    · have hv : v ∈ rest := by
        rcases List.mem_cons.mp h with h | h
        · exact absurd h.symm hx
        · exact h
      simp [firstIdx, hx, ih hv]

theorem firstIdx_lt_length (v : Int) :
    ∀ s, v ∈ s → firstIdx v s < s.length := by
  intro s
  induction s with
  | nil => intro h; simp at h
  | cons x rest ih =>
    intro h
    by_cases hx : x = v
    · simp [firstIdx, hx]
    · have hv : v ∈ rest := by
        rcases List.mem_cons.mp h with h | h
        · exact absurd h.symm hx
        · exact h
      simp only [firstIdx, if_neg hx, List.length_cons]
      exact Nat.succ_lt_succ (ih hv)

theorem firstIdx_append_new (v : Int) :
    ∀ s, v ∉ s → firstIdx v (s ++ [v]) = s.length := by
  intro s
  induction s with
  | nil => simp [firstIdx]
  | cons x rest ih =>
    intro h
    have hx : x ≠ v := fun he => h (he ▸ List.mem_cons_self x rest)
    have hr : v ∉ rest := fun hm => h (List.mem_cons_of_mem x hm)
    show firstIdx v ((x :: rest) ++ [v]) = rest.length + 1
    rw [List.cons_append]
    show (if x = v then 0 else firstIdx v (rest ++ [v]) + 1) = rest.length + 1
    rw [if_neg hx, ih hr]

theorem addPos_keys (v : Int) :
    ∀ acc : List (Int × Nat),
      (addPos acc v).map Prod.fst =
        if v ∈ acc.map Prod.fst then acc.map Prod.fst
        else acc.map Prod.fst ++ [v] := by
  intro acc
  induction acc with
  | nil => simp [addPos]
  | cons e rest ih =>
    by_cases hk : e.1 = v
    · have hv : v ∈ (e :: rest).map Prod.fst := by
        simp only [List.map_cons, List.mem_cons]
        exact Or.inl hk.symm
      rw [if_pos hv]
      show (addPos (e :: rest) v).map Prod.fst = _
      cases e with
      | mk k n =>
        simp only at hk
        simp [addPos, if_pos hk]
    · cases e with
      | mk k n =>
        simp only at hk
        show (addPos ((k, n) :: rest) v).map Prod.fst = _
        simp only [addPos, if_neg hk, List.map_cons, ih]
        by_cases hv : v ∈ rest.map Prod.fst
        · rw [if_pos hv, if_pos (by simp [hv])]
        · rw [if_neg hv,
            if_neg (by
              simp only [List.mem_cons]
              rintro (h | h)
              · exact hk h.symm
              · exact hv h)]
          simp

theorem addPos_entry (v : Int) :
    ∀ acc : List (Int × Nat), (acc.map Prod.fst).Nodup →
      ∀ e ∈ addPos acc v,
        (e = (v, 1) ∧ v ∉ acc.map Prod.fst) ∨
        (∃ n, e = (v, n + 1) ∧ (v, n) ∈ acc) ∨
        (e.1 ≠ v ∧ e ∈ acc) := by
  intro acc
  induction acc with
  | nil =>
    intro _ e he
    simp only [addPos, List.mem_singleton] at he
    exact Or.inl ⟨he, by simp⟩
  | cons a rest ih =>
    intro hnd e he
    cases a with
    | mk k n =>
      simp only [List.map_cons, List.nodup_cons] at hnd
      by_cases hk : k = v
      · have haddp : addPos ((k, n) :: rest) v = (k, n + 1) :: rest := by
          simp [addPos, hk]
        rw [haddp] at he
        rcases List.mem_cons.mp he with he1 | he2
        · refine Or.inr (Or.inl ⟨n, ?_, ?_⟩)
          · rw [he1, hk]
          · rw [← hk]; exact List.mem_cons_self _ _
        · have hmape : e.1 ∈ rest.map Prod.fst := List.mem_map_of_mem Prod.fst he2
          have hne : e.1 ≠ v := by
            rw [← hk]
            intro hek
            exact hnd.1 (hek ▸ hmape)
          exact Or.inr (Or.inr ⟨hne, List.mem_cons_of_mem _ he2⟩)
      · have haddp : addPos ((k, n) :: rest) v = (k, n) :: addPos rest v := by
          simp [addPos, hk]
        rw [haddp] at he
        rcases List.mem_cons.mp he with he1 | he
        · refine Or.inr (Or.inr ⟨?_, ?_⟩)
          · rw [he1]; exact hk
          · rw [he1]; exact List.mem_cons_self _ _
        · rcases ih hnd.2 e he with h | h | h
          · refine Or.inl ⟨h.1, ?_⟩
            simp only [List.map_cons, List.mem_cons]
            rintro (hh | hh)
            · exact hk hh.symm
            · exact h.2 hh
          · obtain ⟨n2, hn1, hn2⟩ := h
            exact Or.inr (Or.inl ⟨n2, hn1, List.mem_cons_of_mem _ hn2⟩)
          · exact Or.inr (Or.inr ⟨h.1, List.mem_cons_of_mem _ h.2⟩)

/-- Invariant tying the counting dictionary to the prefix of positions seen
so far: entries hold exact counts; keys are exactly the seen values, without
duplicates, ordered by first appearance. -/
def CountsInv (s : List Int) (acc : List (Int × Nat)) : Prop :=
  (∀ e ∈ acc, e.2 = countVal e.1 s) ∧
  (∀ v : Int, v ∈ acc.map Prod.fst ↔ v ∈ s) ∧
  (acc.map Prod.fst).Nodup ∧
  List.Pairwise (fun a b => firstIdx a s < firstIdx b s) (acc.map Prod.fst)

theorem CountsInv_addPos (s : List Int) (acc : List (Int × Nat)) (v : Int)
    (h : CountsInv s acc) : CountsInv (s ++ [v]) (addPos acc v) := by
  obtain ⟨h1, h2, h3, h4⟩ := h
  refine ⟨?_, ?_, ?_, ?_⟩
  · intro e he
    rcases addPos_entry v acc h3 e he with hc | ⟨n, hen, hmem⟩ | ⟨hne, hmem⟩
    · rcases hc with ⟨he1, hnk⟩
      subst he1
      have hns : v ∉ s := fun hv => hnk ((h2 v).mpr hv)
      simp [countVal_append, countVal_eq_zero_of_not_mem v s hns, countVal]
    · subst hen
      simp only
      have := h1 (v, n) hmem
      simp only at this
      simp [countVal_append, countVal, ← this]
    · have := h1 e hmem
      have hvne : v ≠ e.1 := fun hh => hne hh.symm
      have hz : countVal e.1 [v] = 0 := by
        simp [countVal, hvne]
      rw [countVal_append, hz, Nat.add_zero]
      exact this
  · intro w
    rw [addPos_keys]
    by_cases hv : v ∈ acc.map Prod.fst
    · rw [if_pos hv]
      rw [h2 w]
      constructor
      · intro hw; exact List.mem_append_left _ hw
      · intro hw
        rcases List.mem_append.mp hw with hw | hw
        · exact hw
        · simp only [List.mem_singleton] at hw
          subst hw
          exact (h2 w).mp hv
    · rw [if_neg hv]
      simp only [List.mem_append, List.mem_singleton, h2 w]
  · rw [addPos_keys]
    by_cases hv : v ∈ acc.map Prod.fst
    · rw [if_pos hv]; exact h3
    · rw [if_neg hv]
      simp [List.nodup_append, h3, hv]
  · rw [addPos_keys]
    by_cases hv : v ∈ acc.map Prod.fst
    · rw [if_pos hv]
      refine h4.imp_of_mem ?_
      intro a b ha hb hab
      have has : a ∈ s := (h2 a).mp ha
      have hbs : b ∈ s := (h2 b).mp hb
      rw [firstIdx_append_left a s [v] has, firstIdx_append_left b s [v] hbs]
      exact hab
    · rw [if_neg hv]
      rw [List.pairwise_append]
      refine ⟨?_, ?_, ?_⟩
      · refine h4.imp_of_mem ?_
        intro a b ha hb hab
        have has : a ∈ s := (h2 a).mp ha
        have hbs : b ∈ s := (h2 b).mp hb
        rw [firstIdx_append_left a s [v] has, firstIdx_append_left b s [v] hbs]
        exact hab
      · simp
      · intro a ha b hb
        simp only [List.mem_singleton] at hb
        have has : a ∈ s := (h2 a).mp ha
        have hns : v ∉ s := fun hvs => hv ((h2 v).mpr hvs)
        rw [hb, firstIdx_append_left a s [v] has, firstIdx_append_new v s hns]
        exact firstIdx_lt_length a s has

theorem CountsInv_buildCounts :
    ∀ (rest s : List Int) (acc : List (Int × Nat)),
      CountsInv s acc → CountsInv (s ++ rest) (buildCounts acc rest) := by
  intro rest
  induction rest with
  | nil => intro s acc h; simpa using h
  | cons v rest ih =>
    intro s acc h
    have step := CountsInv_addPos s acc v h
    have := ih (s ++ [v]) (addPos acc v) step
    simpa [List.append_assoc] using this

theorem buildCounts_inv (l : List Int) : CountsInv l (buildCounts [] l) := by
  have base : CountsInv [] [] := by
    refine ⟨?_, ?_, ?_, ?_⟩ <;> simp
  simpa using CountsInv_buildCounts l [] [] base

theorem maxByCount_ge :
    ∀ (l : List (Int × Nat)) (best : Int × Nat),
      ∀ e ∈ best :: l, e.2 ≤ (maxByCount best l).2 := by
  intro l
  induction l with
  | nil =>
    intro best e he
    simp only [List.mem_singleton] at he
    subst he
    exact Nat.le_refl _
  | cons a rest ih =>
    intro best e he
    simp only [maxByCount]
    by_cases hgt : a.2 > best.2
    · rw [if_pos hgt]
      rcases List.mem_cons.mp he with h1 | h1
      · rw [h1]
        exact Nat.le_trans (Nat.le_of_lt hgt) (ih a a (List.mem_cons_self _ _))
      · rcases List.mem_cons.mp h1 with h2 | h2
        · rw [h2]
          exact ih a a (List.mem_cons_self _ _)
        · exact ih a e (List.mem_cons_of_mem _ h2)
    · rw [if_neg hgt]
      rcases List.mem_cons.mp he with h1 | h1
      · rw [h1]
        exact ih best best (List.mem_cons_self _ _)
      · rcases List.mem_cons.mp h1 with h2 | h2
        · rw [h2]
          exact Nat.le_trans (Nat.le_of_not_lt hgt) (ih best best (List.mem_cons_self _ _))
        · exact ih best e (List.mem_cons_of_mem _ h2)

theorem maxByCount_split :
    ∀ (l : List (Int × Nat)) (best : Int × Nat),
      ∃ l1 l2, best :: l = l1 ++ (maxByCount best l) :: l2 ∧
        ∀ e ∈ l1, e.2 < (maxByCount best l).2 := by
  intro l
  induction l with
  | nil =>
    intro best
    exact ⟨[], [], rfl, by intro e he; simp at he⟩
  | cons a rest ih =>
    intro best
    simp only [maxByCount]
    by_cases hgt : a.2 > best.2
    · rw [if_pos hgt]
      obtain ⟨l1, l2, heq, hbound⟩ := ih a
      refine ⟨best :: l1, l2, ?_, ?_⟩
      · rw [List.cons_append, ← heq]
      · intro e he
        rcases List.mem_cons.mp he with h1 | h1
        · rw [h1]
          have ha : a.2 ≤ (maxByCount a rest).2 :=
            maxByCount_ge rest a a (List.mem_cons_self _ _)
          omega
        · exact hbound e h1
    · rw [if_neg hgt]
      obtain ⟨l1, l2, heq, hbound⟩ := ih best
      cases l1 with
      | nil =>
        simp only [List.nil_append] at heq
        injection heq with h1 h2
        refine ⟨[], a :: rest, ?_, by intro e he; simp at he⟩
        rw [← h1, List.nil_append]
      | cons x t =>
        simp only [List.cons_append] at heq
        injection heq with hx hrest
        refine ⟨best :: a :: t, l2, ?_, ?_⟩
        · rw [List.cons_append, List.cons_append, ← hrest]
        · intro e he
          have hb : best.2 < (maxByCount best rest).2 := by
            have hxm := hbound x (List.mem_cons_self _ _)
            rw [← hx] at hxm
            exact hxm
          rcases List.mem_cons.mp he with h1 | h1
          · rw [h1]; exact hb
          · rcases List.mem_cons.mp h1 with h2 | h2
            · rw [h2]
              have hab : a.2 ≤ best.2 := Nat.le_of_not_lt hgt
              omega
            · exact hbound e (List.mem_cons_of_mem _ h2)

/-- Characterisation of the most-common computation: the winner occurs in
the list, attains the maximal occurrence count, and among the values tied at
that count it is the one whose first occurrence comes earliest — not the
numerically smallest. -/
theorem mostCommon_spec (l : List Int) (e0 : Int × Nat) (rest0 : List (Int × Nat))
    (hbc : buildCounts [] l = e0 :: rest0) :
    (maxByCount e0 rest0).1 ∈ l ∧
    (∀ v ∈ l, countVal v l ≤ countVal (maxByCount e0 rest0).1 l) ∧
    (∀ v ∈ l, countVal v l = countVal (maxByCount e0 rest0).1 l →
      firstIdx (maxByCount e0 rest0).1 l ≤ firstIdx v l) := by
  obtain ⟨h1, h2, h3, h4⟩ := buildCounts_inv l
  rw [hbc] at h1 h2 h3 h4
  obtain ⟨l1, l2, heq, hbound⟩ := maxByCount_split rest0 e0
  have hrmem : maxByCount e0 rest0 ∈ e0 :: rest0 := by
    rw [heq]
    exact List.mem_append_right _ (List.mem_cons_self _ _)
  have hrcount : (maxByCount e0 rest0).2 = countVal (maxByCount e0 rest0).1 l :=
    h1 _ hrmem
  have hrl : (maxByCount e0 rest0).1 ∈ l :=
    (h2 _).mp (List.mem_map_of_mem Prod.fst hrmem)
  refine ⟨hrl, ?_, ?_⟩
  · intro v hv
    obtain ⟨ev, hevmem, hev1⟩ := List.mem_map.mp ((h2 v).mpr hv)
    have hle : ev.2 ≤ (maxByCount e0 rest0).2 := maxByCount_ge rest0 e0 ev hevmem
    rw [h1 ev hevmem, hev1, hrcount] at hle
    exact hle
  · intro v hv hcnt
    obtain ⟨ev, hevmem, hev1⟩ := List.mem_map.mp ((h2 v).mpr hv)
    have hev2 : ev.2 = (maxByCount e0 rest0).2 := by
      rw [h1 ev hevmem, hev1, hcnt, hrcount]
    rw [heq] at hevmem
    rcases List.mem_append.mp hevmem with hmem | hmem
    · exact absurd hev2 (Nat.ne_of_lt (hbound ev hmem))
    · rcases List.mem_cons.mp hmem with hmem | hmem
      · have hveq : v = (maxByCount e0 rest0).1 := by rw [← hev1, hmem]
        rw [hveq]
      · have hpw : List.Pairwise (fun a b => firstIdx a l < firstIdx b l)
            ((maxByCount e0 rest0).1 :: l2.map Prod.fst) := by
          have hmap : (e0 :: rest0).map Prod.fst =
              l1.map Prod.fst ++ ((maxByCount e0 rest0).1 :: l2.map Prod.fst) := by
            rw [heq]
            simp
          rw [hmap] at h4
          exact h4.sublist (List.sublist_append_right _ _)
        have hlt := (List.pairwise_cons.mp hpw).1 v
          (hev1 ▸ List.mem_map_of_mem Prod.fst hmem)
        exact Nat.le_of_lt hlt


/- ## Lemmas about the agent loop -/

theorem fsLookup_write_isSome (q : String) (d : Document) (p : String) :
    ∀ fs : FS, (fsLookup fs p).isSome = true →
      (fsLookup (fsWrite fs q d) p).isSome = true := by
  intro fs
  induction fs with
  | nil => intro h; simp [fsLookup] at h
  | cons entry rest ih =>
    intro h
    cases entry with
    | mk q' e' =>
      by_cases hq : q' = q
      · simp only [fsWrite, if_pos hq]
        by_cases hp : q' = p
        · simp [fsLookup, hp]
        · simp only [fsLookup, if_neg hp] at h ⊢
          exact h
      · simp only [fsWrite, if_neg hq]
        by_cases hp : q' = p
        · simp [fsLookup, hp]
        · simp only [fsLookup, if_neg hp] at h ⊢
          exact ih h

theorem matchInt_true (o : Option Value)
    (h : (match o with | some (.vInt _) => true | _ => false) = true) :
    ∃ n, o = some (.vInt n) := by
  cases o with
  | none => exact Bool.noConfusion h
  | some v =>
    cases v with
    | vInt n => exact ⟨n, rfl⟩
    | vStr s => exact Bool.noConfusion h

theorem matchStr_true (o : Option Value)
    (h : (match o with | some (.vStr _) => true | _ => false) = true) :
    ∃ s, o = some (.vStr s) := by
  cases o with
  | none => exact Bool.noConfusion h
  | some v =>
    cases v with
    | vInt n => exact Bool.noConfusion h
    | vStr s => exact ⟨s, rfl⟩

theorem wf_analyze (tc : ToolCall) (hn : tc.fname = "analyze_text_for_errors")
    (hwf : wellFormedCallB tc = true) :
    (∃ n, argLookup tc.args "slide_number" = some (.vInt n)) ∧
    (∃ s, argLookup tc.args "text" = some (.vStr s)) := by
  unfold wellFormedCallB at hwf
  rw [if_pos hn] at hwf
  rw [Bool.and_eq_true] at hwf
  exact ⟨matchInt_true _ hwf.1, matchStr_true _ hwf.2⟩

theorem wf_add (tc : ToolCall) (hn : tc.fname = "add_correction")
    (hwf : wellFormedCallB tc = true) :
    (∃ n, argLookup tc.args "slide_number" = some (.vInt n)) ∧
    (∃ s, argLookup tc.args "shape_name" = some (.vStr s)) ∧
    (∃ s, argLookup tc.args "original_text" = some (.vStr s)) ∧
    (∃ s, argLookup tc.args "corrected_text" = some (.vStr s)) ∧
    (∃ s, argLookup tc.args "correction_type" = some (.vStr s)) ∧
    (∃ s, argLookup tc.args "reasoning" = some (.vStr s)) := by
  unfold wellFormedCallB at hwf
  have hne : tc.fname ≠ "analyze_text_for_errors" := by rw [hn]; decide
  rw [if_neg hne, if_pos hn] at hwf
  simp only [Bool.and_eq_true] at hwf
  obtain ⟨⟨⟨⟨⟨h1, h2⟩, h3⟩, h4⟩, h5⟩, h6⟩ := hwf
  exact ⟨matchInt_true _ h1, matchStr_true _ h2, matchStr_true _ h3,
         matchStr_true _ h4, matchStr_true _ h5, matchStr_true _ h6⟩

theorem dispatch_ok (env : Env) (tc : ToolCall) (st : AgentState) (fs : FS)
    (hwf : wellFormedCallB tc = true)
    (hmc : tc.fname ≠ "mark_complete")
    (hsave : env.saveOk = true)
    (hfile : (fsLookup fs st.presentation_path).isSome = true) :
    ∃ st' fs' r, dispatch env tc st fs = .ok (st', fs', r) ∧
      st'.iteration = st.iteration ∧
      st'.is_complete = st.is_complete ∧
      st'.presentation_path = st.presentation_path ∧
      st'.output_path = st.output_path ∧
      (fsLookup fs' st'.presentation_path).isSome = true := by
  obtain ⟨doc, hdoc⟩ := Option.isSome_iff_exists.mp hfile
  unfold dispatch
  by_cases hmem : tc.fname ∈ toolNames
  · rw [if_pos hmem]
    by_cases h1 : tc.fname = "extract_slide_content"
    · rw [if_pos h1]
      unfold tool_extract_slide_content
      rw [hdoc]
      exact ⟨_, fs, _, rfl, rfl, rfl, rfl, rfl, hfile⟩
    · rw [if_neg h1]
      by_cases h2 : tc.fname = "analyze_alignment"
      · rw [if_pos h2, hdoc]
        exact ⟨st, fs, _, rfl, rfl, rfl, rfl, rfl, hfile⟩
      · rw [if_neg h2]
        by_cases h3 : tc.fname = "apply_all_corrections"
        · rw [if_pos h3]
          unfold tool_apply_all_corrections
          by_cases hp : st.pending_corrections = []
          · rw [if_pos hp]
            exact ⟨st, fs, _, rfl, rfl, rfl, rfl, rfl, hfile⟩
          · rw [if_neg hp]
            simp only [hdoc]
            rw [if_pos hsave]
            refine ⟨_, _, _, rfl, rfl, rfl, rfl, rfl, ?_⟩
            exact fsLookup_write_isSome st.output_path _ st.presentation_path fs hfile
        · rw [if_neg h3]
          by_cases h4 : tc.fname = "mark_complete"
          · exact absurd h4 hmc
          · rw [if_neg h4]
            by_cases h5 : tc.fname = "analyze_text_for_errors"
            · rw [if_pos h5]
              obtain ⟨⟨n, ha1⟩, ⟨s, ha2⟩⟩ := wf_analyze tc h5 hwf
              simp only [getArg, ha1, ha2]
              exact ⟨st, fs, _, rfl, rfl, rfl, rfl, rfl, hfile⟩
            · rw [if_neg h5]
              by_cases h6 : tc.fname = "add_correction"
              · rw [if_pos h6]
                obtain ⟨⟨n, ha1⟩, ⟨s2, ha2⟩, ⟨s3, ha3⟩, ⟨s4, ha4⟩, ⟨s5, ha5⟩, ⟨s6, ha6⟩⟩ :=
                  wf_add tc h6 hwf
                simp only [getArg, ha1, ha2, ha3, ha4, ha5, ha6]
                exact ⟨_, fs, _, rfl, rfl, rfl, rfl, rfl, hfile⟩
              · exfalso
                unfold toolNames at hmem
                simp only [List.mem_cons, List.mem_singleton] at hmem
                rcases hmem with h | h | h | h | h | h | h
                · exact h1 h
                · exact h5 h
                · exact h2 h
                · exact h6 h
                · exact h3 h
                · exact h4 h
                · simp at h
  · rw [if_neg hmem]
    exact ⟨st, fs, _, rfl, rfl, rfl, rfl, rfl, hfile⟩

theorem execCalls_ok (env : Env) (hsave : env.saveOk = true) :
    ∀ (calls : List ToolCall) (st : AgentState) (fs : FS),
      (∀ tc ∈ calls, tc.fname ≠ "mark_complete" ∧ wellFormedCallB tc = true) →
      (fsLookup fs st.presentation_path).isSome = true →
      ∃ st' fs', execCalls env calls st fs = .ok (st', fs') ∧
        st'.iteration = st.iteration ∧
        st'.is_complete = st.is_complete ∧
        st'.presentation_path = st.presentation_path ∧
        st'.output_path = st.output_path ∧
        (fsLookup fs' st'.presentation_path).isSome = true := by
  intro calls
  induction calls with
  | nil =>
    intro st fs _ hfile
    exact ⟨st, fs, rfl, rfl, rfl, rfl, rfl, hfile⟩
  | cons tc rest ih =>
    intro st fs hall hfile
    obtain ⟨hmc, hwf⟩ := hall tc (List.mem_cons_self _ _)
    obtain ⟨st1, fs1, r, hd, hit, hic, hpp, hop, hf1⟩ :=
      dispatch_ok env tc st fs hwf hmc hsave hfile
    have hf1m : (fsLookup fs1
        ({ st1 with messages := st1.messages ++ [toolMsg tc.id r] }).presentation_path).isSome
        = true := hf1
    obtain ⟨st2, fs2, hexec, hit2, hic2, hpp2, hop2, hf2⟩ :=
      ih { st1 with messages := st1.messages ++ [toolMsg tc.id r] } fs1
        (fun tc' h' => hall tc' (List.mem_cons_of_mem _ h')) hf1m
    refine ⟨st2, fs2, ?_, ?_, ?_, ?_, ?_, hf2⟩
    · simp only [execCalls, hd]
      exact hexec
    · rw [hit2]; exact hit
    · rw [hic2]; exact hic
    · rw [hpp2]; exact hpp
    · rw [hop2]; exact hop

theorem agentLoopGo_spec (oracle : List Message → ModelResponse) (env : Env)
    (hsave : env.saveOk = true)
    (hnc : neverCompletes oracle) (hwf : wellFormedCalls oracle) :
    ∀ (fuel : Nat) (st : AgentState) (fs : FS),
      fuel = MAX_ITERATIONS - st.iteration →
      st.is_complete = false →
      (fsLookup fs st.presentation_path).isSome = true →
      ∃ st' fs', agentLoopGo oracle env fuel st fs = .ok (st', fs') ∧
        st'.is_complete = false ∧
        st'.iteration = max st.iteration MAX_ITERATIONS ∧
        st'.presentation_path = st.presentation_path ∧
        st'.output_path = st.output_path := by
  intro fuel
  induction fuel with
  | zero =>
    intro st fs hfuel hic hfile
    refine ⟨st, fs, rfl, hic, ?_, rfl, rfl⟩
    omega
  | succ fuel ih =>
    intro st fs hfuel hic hfile
    have hlt : st.iteration < MAX_ITERATIONS := by omega
    simp only [agentLoopGo]
    rw [if_pos ⟨hic, hlt⟩]
    obtain ⟨st3, fs3, hexec, hit3, hic3, hpp3, hop3, hf3⟩ :=
      execCalls_ok env hsave (oracle st.messages).tool_calls
        { st with iteration := st.iteration + 1,
                  messages := st.messages ++ [asstMsg (oracle st.messages)] }
        fs
        (fun tc h => ⟨hnc _ tc h, hwf _ tc h⟩)
        hfile
    have hloop : loopIter oracle env st fs = .ok (st3, fs3) := hexec
    have hit3n : st3.iteration = st.iteration + 1 := hit3
    have hic3n : st3.is_complete = st.is_complete := hic3
    have hpp3n : st3.presentation_path = st.presentation_path := hpp3
    have hop3n : st3.output_path = st.output_path := hop3
    rw [hloop]
    obtain ⟨st', fs', hgo, hic', hit', hpp', hop'⟩ :=
      ih st3 fs3 (by omega) (by rw [hic3n]; exact hic) hf3
    refine ⟨st', fs', hgo, hic', ?_, ?_, ?_⟩
    · rw [hit', hit3n]
      omega
    · rw [hpp', hpp3n]
    · rw [hop', hop3n]


/- ## Length preservation and range-aware skipping (for C7) -/

theorem applyAllCorrectionsDoc_length :
    ∀ (l : List Correction) (doc : Document),
      (applyAllCorrectionsDoc doc l).1.slides.length = doc.slides.length := by
  intro l
  induction l with
  | nil => intro doc; rfl
  | cons c rest ih =>
    intro doc
    show (applyAllCorrectionsDoc (applyCorrectionToDoc doc c).1 rest).1.slides.length = _
    rw [ih (applyCorrectionToDoc doc c).1, applyCorrectionToDoc_length]

theorem applyAllCorrectionsDoc_skip_len (c : Correction) (n : Nat)
    (hc : ∀ doc' : Document, doc'.slides.length = n →
      applyCorrectionToDoc doc' c = (doc', [])) :
    ∀ (l1 l2 : List Correction) (doc : Document), doc.slides.length = n →
      applyAllCorrectionsDoc doc (l1 ++ c :: l2) = applyAllCorrectionsDoc doc (l1 ++ l2) := by
  intro l1
  induction l1 with
  | nil =>
    intro l2 doc hlen
    simp only [List.nil_append, applyAllCorrectionsDoc]
    simp [hc doc hlen]
  | cons a l1 ih =>
    intro l2 doc hlen
    simp only [List.cons_append, applyAllCorrectionsDoc, List.append_eq]
    rw [ih l2 (applyCorrectionToDoc doc a).1 (by rw [applyCorrectionToDoc_length]; exact hlen)]

/- ## Shared concrete inputs for the claim instances -/

def envW : Env := ⟨true, fun _ _ => "ok"⟩

def docEmpty : Document := ⟨[]⟩

def corrW : Correction := ⟨1, "Body", "Teh", "the", "spelling", "typo"⟩

def stC2 : AgentState :=
  { presentation_path := "in.pptx"
    output_path := "out.pptx"
    slides_content := []
    pending_corrections := [corrW]
    applied_corrections := []
    current_task := "analyze"
    iteration := 0
    is_complete := false
    messages := [] }

/-- A model that always requests `add_correction` with an empty argument
object: valid JSON, but the required keys are missing. -/
def oracleCrash : List Message → ModelResponse :=
  fun _ => ⟨none, [⟨"call_1", "add_correction", []⟩]⟩

/-- A model that only ever sends free-text content. -/
def oracleIdle : List Message → ModelResponse :=
  fun _ => ⟨some "thinking", []⟩

/- ## Claim C1 -/

/-- C1, counterexample: the claim quantifies over every run in which
`mark_complete` is never invoked and asserts a summary is always returned
without an error; the run in which the model requests `add_correction`
with empty arguments never invokes `mark_complete`, yet `run_agent`
raises (`KeyError` at the argument access) during iteration 1 instead of
returning a summary. -/
theorem claim_C1_cex :
    neverCompletes oracleCrash ∧
    runAgent oracleCrash envW "in.pptx" "out.pptx" [("in.pptx", docEmpty)] =
      .error (.keyError "slide_number") := by
  constructor
  · intro msgs tc h
    simp only [oracleCrash, List.mem_singleton] at h
    rw [h]
    decide
  · rfl

/-- C1 (amended): in every run in which the model never invokes
`mark_complete`, every requested tool call is well formed (required
arguments present with the declared kinds), the input file is readable and
saving succeeds, the loop terminates after exactly 20 iterations
(`MAX_ITERATIONS`), the final state has `is_complete = false`, and
`run_agent` returns the summary without an error. -/
theorem claim_C1_thm (oracle : List Message → ModelResponse) (env : Env)
    (p out : String) (fs : FS)
    (hnc : neverCompletes oracle) (hwf : wellFormedCalls oracle)
    (hfile : (fsLookup fs p).isSome = true) (hsave : env.saveOk = true) :
    ∃ st fs', agentLoop oracle env (initState p out) fs = .ok (st, fs') ∧
      st.iteration = 20 ∧ st.is_complete = false ∧
      runAgent oracle env p out fs = .ok (mkSummary st) ∧
      (mkSummary st).iterations = 20 := by
  obtain ⟨st, fs', hgo, hic, hit, hpp, hop⟩ :=
    agentLoopGo_spec oracle env hsave hnc hwf
      (MAX_ITERATIONS - (initState p out).iteration) (initState p out) fs rfl rfl hfile
  have hloop : agentLoop oracle env (initState p out) fs = .ok (st, fs') := hgo
  have hit20 : st.iteration = 20 := hit.trans rfl
  refine ⟨st, fs', hloop, hit20, hic, ?_, ?_⟩
  · simp only [runAgent, hloop]
  · show st.iteration = 20
    exact hit20

/-- Witness for C1 (amended): a model that only sends text content, with a
readable input file, runs for exactly 20 iterations and produces a
summary. -/
theorem claim_C1_wit :
    ∃ st fs', agentLoop oracleIdle envW (initState "deck.pptx" "out.pptx")
        [("deck.pptx", docEmpty)] = .ok (st, fs') ∧
      st.iteration = 20 ∧ st.is_complete = false ∧
      runAgent oracleIdle envW "deck.pptx" "out.pptx" [("deck.pptx", docEmpty)] =
        .ok (mkSummary st) ∧
      (mkSummary st).iterations = 20 :=
  claim_C1_thm oracleIdle envW "deck.pptx" "out.pptx" [("deck.pptx", docEmpty)]
    (fun msgs tc h => by simp [oracleIdle] at h)
    (fun msgs tc h => by simp [oracleIdle] at h)
    rfl rfl

/- ## Claim C2 -/

/-- C2: on a non-empty pending list, a call to `apply_all_corrections`
whose save succeeds empties `pending_corrections` and transfers every
formerly pending correction into `applied_corrections`; when the save
fails the call raises instead, and no state — in particular no extended
`applied_corrections` — is produced, so no correction enters `applied`
before the save succeeds. -/
theorem claim_C2_thm (env : Env) (st : AgentState) (fs : FS) (doc : Document)
    (hp : st.pending_corrections ≠ [])
    (hdoc : fsLookup fs st.presentation_path = some doc) :
    (env.saveOk = true →
      tool_apply_all_corrections env st fs =
        .ok ({ st with pending_corrections := [],
                       applied_corrections :=
                         st.applied_corrections ++ st.pending_corrections },
             fsWrite fs st.output_path (applyAllCorrectionsDoc doc st.pending_corrections).1,
             .applySuccess (applyAllCorrectionsDoc doc st.pending_corrections).2.length
               (applyAllCorrectionsDoc doc st.pending_corrections).2 st.output_path) ∧
      (∀ c ∈ st.pending_corrections, c ∈ st.applied_corrections ++ st.pending_corrections)) ∧
    (env.saveOk = false →
      tool_apply_all_corrections env st fs = .error .saveFailed) := by
  constructor
  · intro hsave
    constructor
    · unfold tool_apply_all_corrections
      rw [if_neg hp]
      simp only [hdoc]
      rw [if_pos hsave]
    · intro c hc
      exact List.mem_append_right _ hc
  · intro hsave
    unfold tool_apply_all_corrections
    rw [if_neg hp]
    simp only [hdoc]
    rw [if_neg (by simp [hsave])]

/-- Witness for C2 at a concrete state with one pending correction. -/
theorem claim_C2_wit :
    tool_apply_all_corrections envW stC2 [("in.pptx", docEmpty)] =
      .ok ({ stC2 with pending_corrections := [],
                       applied_corrections :=
                         stC2.applied_corrections ++ stC2.pending_corrections },
           fsWrite [("in.pptx", docEmpty)] "out.pptx"
             (applyAllCorrectionsDoc docEmpty stC2.pending_corrections).1,
           .applySuccess (applyAllCorrectionsDoc docEmpty stC2.pending_corrections).2.length
             (applyAllCorrectionsDoc docEmpty stC2.pending_corrections).2 "out.pptx") :=
  ((claim_C2_thm envW stC2 [("in.pptx", docEmpty)] docEmpty (by decide) rfl).1 rfl).1

/- ## Claim C3 -/

/-- C3: with an empty pending list, `apply_all_corrections` returns the
no-op result leaving state and file system untouched — it does not even
need the input file to exist (the document is not opened).  Consequently,
after any successful call, a second call is a no-op and leaves the file
system (in particular the output file) unchanged. -/
theorem claim_C3_thm :
    (∀ (env : Env) (st : AgentState) (fs : FS),
      st.pending_corrections = [] →
      tool_apply_all_corrections env st fs = .ok (st, fs, .noCorrections)) ∧
    (∀ (env : Env) (st st' : AgentState) (fs fs' : FS) (r : ToolResult),
      tool_apply_all_corrections env st fs = .ok (st', fs', r) →
      tool_apply_all_corrections env st' fs' = .ok (st', fs', .noCorrections)) := by
  have hempty : ∀ (env : Env) (st : AgentState) (fs : FS),
      st.pending_corrections = [] →
      tool_apply_all_corrections env st fs = .ok (st, fs, .noCorrections) := by
    intro env st fs h
    unfold tool_apply_all_corrections
    rw [if_pos h]
  refine ⟨hempty, ?_⟩
  intro env st st' fs fs' r h
  have hp' : st'.pending_corrections = [] := by
    by_cases hp : st.pending_corrections = []
    · rw [hempty env st fs hp] at h
      injection h with h3
      have hst : st = st' := congrArg (fun q => q.1) h3
      rw [← hst]
      exact hp
    · unfold tool_apply_all_corrections at h
      rw [if_neg hp] at h
      cases hdoc : fsLookup fs st.presentation_path with
      | none =>
        rw [hdoc] at h
        exact Except.noConfusion h
      | some doc =>
        simp only [hdoc] at h
        by_cases hsv : env.saveOk = true
        · rw [if_pos hsv] at h
          injection h with h3
          have hst : _ = st' := congrArg (fun q => q.1) h3
          rw [← hst]
        · rw [if_neg hsv] at h
          exact Except.noConfusion h
  exact hempty env st' fs' hp'

/-- Witness for C3: a no-op call on an empty pending list over an empty
file system (nothing is opened or saved). -/
theorem claim_C3_wit :
    tool_apply_all_corrections envW (initState "a.pptx" "b.pptx") [] =
      .ok (initState "a.pptx" "b.pptx", [], .noCorrections) :=
  claim_C3_thm.1 envW (initState "a.pptx" "b.pptx") [] rfl


/- ## Claim C4 -/

def slideC4 : Slide :=
  ⟨[⟨"Body", 0, true, [⟨[⟨"Teh x"⟩]⟩]⟩,
    ⟨"Body", 0, true, [⟨[⟨"Teh y"⟩]⟩]⟩]⟩

def docC4 : Document := ⟨[slideC4]⟩

def corrC4 : Correction := ⟨1, "Body", "Teh", "the", "spelling", "typo"⟩

/-- C4, counterexample: on a slide with two shapes both named `"Body"`, the
applier modifies the second same-named shape as well — the shape iteration
has no first-match cut-off — refuting the claim that every later shape with
the matching name is left unmodified. -/
theorem claim_C4_cex :
    (applyAllCorrectionsDoc docC4 [corrC4]).1 =
      ⟨[⟨[⟨"Body", 0, true, [⟨[⟨"the x"⟩]⟩]⟩,
          ⟨"Body", 0, true, [⟨[⟨"the y"⟩]⟩]⟩]⟩]⟩ ∧
    (⟨"Body", 0, true, [⟨[⟨"the y"⟩]⟩]⟩ : Shape) ≠
      ⟨"Body", 0, true, [⟨[⟨"Teh y"⟩]⟩]⟩ := by
  exact ⟨by decide, by decide⟩

/-- C4 (amended): a correction is applied independently to every shape of
the slide, so every shape whose name equals `shape_name` receives it — not
only the first in shape order; shapes with a different name are left
unmodified with no detail recorded. -/
theorem claim_C4_thm (c : Correction) (sl : Slide) :
    ((applyToSlide c sl).1.shapes = sl.shapes.map (fun s => (applyToShape c s).1)) ∧
    (∀ i : Nat, (applyToSlide c sl).1.shapes[i]? =
      (sl.shapes[i]?).map (fun s => (applyToShape c s).1)) ∧
    (∀ s ∈ sl.shapes, s.name ≠ c.shape_name → applyToShape c s = (s, [])) := by
  refine ⟨?_, ?_, ?_⟩
  · show (applyShapes c sl.shapes).1 = _
    exact applyShapes_fst c sl.shapes
  · intro i
    show (applyShapes c sl.shapes).1[i]? = (sl.shapes[i]?).map (fun s => (applyToShape c s).1)
    rw [applyShapes_fst c sl.shapes, List.getElem?_map]
  · intro s _ hn
    exact applyToShape_nomatch c s hn

/-- Witness for C4 (amended) at the two-`"Body"`-shape slide. -/
theorem claim_C4_wit :
    ((applyToSlide corrC4 slideC4).1.shapes =
      slideC4.shapes.map (fun s => (applyToShape corrC4 s).1)) ∧
    (∀ i : Nat, (applyToSlide corrC4 slideC4).1.shapes[i]? =
      (slideC4.shapes[i]?).map (fun s => (applyToShape corrC4 s).1)) ∧
    (∀ s ∈ slideC4.shapes, s.name ≠ corrC4.shape_name →
      applyToShape corrC4 s = (s, [])) :=
  claim_C4_thm corrC4 slideC4

/- ## Claim C5 -/

/-- One loop-body invocation of a registered tool with a missing required
argument: the direct dictionary access raises, uncaught. -/
theorem dispatch_add_missing (env : Env) (tc : ToolCall) (st : AgentState) (fs : FS)
    (hn : tc.fname = "add_correction")
    (hmiss : argLookup tc.args "slide_number" = none) :
    dispatch env tc st fs = .error (.keyError "slide_number") := by
  unfold dispatch
  have hmem : tc.fname ∈ toolNames := by rw [hn]; decide
  rw [if_pos hmem,
      if_neg (by rw [hn]; decide), if_neg (by rw [hn]; decide),
      if_neg (by rw [hn]; decide), if_neg (by rw [hn]; decide),
      if_neg (by rw [hn]; decide), if_pos hn]
  simp only [getArg, hmiss]

/-- C5, counterexample: the loop performs no schema validation — a call to
the registered tool `add_correction` whose arguments lack the required
`slide_number` makes the tool-execution step raise (`KeyError`) instead of
appending a tool-error result and continuing: no continuation state is ever
produced. -/
theorem claim_C5_cex :
    execCalls envW [⟨"call_9", "add_correction", [("reasoning", .vStr "r")]⟩]
      (initState "in.pptx" "out.pptx") [("in.pptx", docEmpty)] =
      .error (.keyError "slide_number") ∧
    ∀ st' fs', execCalls envW [⟨"call_9", "add_correction", [("reasoning", .vStr "r")]⟩]
      (initState "in.pptx" "out.pptx") [("in.pptx", docEmpty)] ≠ .ok (st', fs') := by
  refine ⟨rfl, ?_⟩
  intro st' fs' h
  exact Except.noConfusion h

/-- C5 (amended): the loop does not validate tool arguments against the
declared schema; it accesses the required keys directly, and when the model
requests `add_correction` without `slide_number` the resulting `KeyError`
escapes the loop (the run aborts with an error) instead of being surfaced
as a tool-error result in the transcript. -/
theorem claim_C5_thm (oracle : List Message → ModelResponse) (env : Env)
    (st : AgentState) (fs : FS) (id : String) (args : List (String × Value))
    (rest : List ToolCall)
    (hic : st.is_complete = false) (hit : st.iteration < MAX_ITERATIONS)
    (hresp : (oracle st.messages).tool_calls = ⟨id, "add_correction", args⟩ :: rest)
    (hmiss : argLookup args "slide_number" = none) :
    agentLoop oracle env st fs = .error (.keyError "slide_number") := by
  have hstep : loopIter oracle env st fs = .error (.keyError "slide_number") := by
    show execCalls env (oracle st.messages).tool_calls
        { st with iteration := st.iteration + 1,
                  messages := st.messages ++ [asstMsg (oracle st.messages)] } fs =
      .error (.keyError "slide_number")
    rw [hresp]
    simp only [execCalls]
    rw [dispatch_add_missing env _ _ fs rfl hmiss]
  unfold agentLoop
  obtain ⟨k, hk⟩ : ∃ k, MAX_ITERATIONS - st.iteration = k + 1 :=
    ⟨MAX_ITERATIONS - st.iteration - 1, by omega⟩
  rw [hk]
  simp only [agentLoopGo]
  rw [if_pos ⟨hic, hit⟩, hstep]

/-- Witness for C5 (amended): the crashing run at a concrete state. -/
theorem claim_C5_wit :
    agentLoop oracleCrash envW (initState "in.pptx" "out.pptx") [("in.pptx", docEmpty)] =
      .error (.keyError "slide_number") :=
  claim_C5_thm oracleCrash envW (initState "in.pptx" "out.pptx") [("in.pptx", docEmpty)]
    "call_1" [] [] rfl (by decide) rfl rfl

/- ## Claim C6 -/

/-- A text-category correction acts on a run by the leftmost
non-overlapping decomposition: replace when the pattern occurs, leave the
run alone otherwise. -/
theorem applyToRun_char (c : Correction) (p : Char) (ps : List Char)
    (hpat : c.original_text.data = p :: ps) (r : Run) :
    (applyToRun c r).1 =
      if strContains r.text.data (p :: ps) = true then
        Run.mk (String.mk (joinWith c.corrected_text.data (splitCore p ps r.text.data)))
      else r := by
  unfold applyToRun
  rw [hpat]
  by_cases h : strContains r.text.data (p :: ps) = true
  · rw [if_pos h, if_pos h]
    show Run.mk (String.mk (pyReplace r.text.data (p :: ps) c.corrected_text.data)) = _
    rw [show pyReplace r.text.data (p :: ps) c.corrected_text.data
          = replaceCore p ps c.corrected_text.data r.text.data from rfl]
    rw [replaceCore_eq_joinWith]
  · rw [if_neg h, if_neg h]

/-- C6: applying a text-category correction to a matched shape rewrites
every run containing `original_text`: the run splits into the pieces
between the non-overlapping occurrences (joining the pieces with the
pattern reconstructs the run, and no piece contains the pattern — every
occurrence is consumed), and the new run text joins the same pieces with
`corrected_text`; runs not containing the pattern are unchanged, and the
shape's name and position are untouched. -/
theorem claim_C6_thm (c : Correction) (s : Shape) (p : Char) (ps : List Char)
    (hty : c.correction_type ≠ "alignment")
    (hname : s.name = c.shape_name)
    (htf : s.has_text_frame = true)
    (hpat : c.original_text.data = p :: ps) :
    (applyToShape c s).1.name = s.name ∧
    (applyToShape c s).1.left = s.left ∧
    (applyToShape c s).1.paragraphs =
      s.paragraphs.map (fun pa => Paragraph.mk (pa.runs.map (fun r =>
        if strContains r.text.data (p :: ps) = true then
          Run.mk (String.mk (joinWith c.corrected_text.data (splitCore p ps r.text.data)))
        else r))) ∧
    (∀ pa ∈ s.paragraphs, ∀ r ∈ pa.runs,
      joinWith (p :: ps) (splitCore p ps r.text.data) = r.text.data ∧
      ∀ piece ∈ splitCore p ps r.text.data, strContains piece (p :: ps) = false) := by
  have hshape : (applyToShape c s).1 =
      { s with paragraphs := (applyParas c s.paragraphs).1 } := by
    unfold applyToShape
    rw [if_pos hname, if_neg hty, if_pos htf]
  refine ⟨by rw [hshape], by rw [hshape], ?_, ?_⟩
  · rw [hshape]
    show (applyParas c s.paragraphs).1 = _
    rw [applyParas_fst]
    have hfun : (fun r : Run => (applyToRun c r).1) =
        (fun r : Run =>
          if strContains r.text.data (p :: ps) = true then
            Run.mk (String.mk (joinWith c.corrected_text.data (splitCore p ps r.text.data)))
          else r) :=
      funext (fun r => applyToRun_char c p ps hpat r)
    rw [hfun]
  · intro pa _ r _
    exact ⟨joinWith_splitCore p ps r.text.data, splitCore_no_pat p ps r.text.data⟩

def corrC6 : Correction := ⟨1, "Body", "Teh", "the", "spelling", "typo"⟩

def shapeC6 : Shape := ⟨"Body", 0, true, [⟨[⟨"Teh quikc tets"⟩]⟩]⟩

/-- Witness for C6: the run `"Teh quikc tets"` with the correction
`"Teh" → "the"` becomes `"the quikc tets"`, the other typos untouched. -/
theorem claim_C6_wit :
    (applyToShape corrC6 shapeC6).1.paragraphs = [⟨[⟨"the quikc tets"⟩]⟩] ∧
    ((applyToShape corrC6 shapeC6).1.name = shapeC6.name ∧
     (applyToShape corrC6 shapeC6).1.left = shapeC6.left ∧
     (applyToShape corrC6 shapeC6).1.paragraphs =
       shapeC6.paragraphs.map (fun pa => Paragraph.mk (pa.runs.map (fun r =>
         if strContains r.text.data ('T' :: ['e', 'h']) = true then
           Run.mk (String.mk (joinWith corrC6.corrected_text.data
             (splitCore 'T' ['e', 'h'] r.text.data)))
         else r))) ∧
     (∀ pa ∈ shapeC6.paragraphs, ∀ r ∈ pa.runs,
       joinWith ('T' :: ['e', 'h']) (splitCore 'T' ['e', 'h'] r.text.data) = r.text.data ∧
       ∀ piece ∈ splitCore 'T' ['e', 'h'] r.text.data,
         strContains piece ('T' :: ['e', 'h']) = false)) :=
  ⟨by decide,
   claim_C6_thm corrC6 shapeC6 'T' ['e', 'h'] (by decide) rfl rfl (by decide)⟩

/- ## Claim C7 -/

/-- C7: a pending correction whose 1-based slide ordinal is out of range,
or an alignment correction whose `corrected_text` does not parse as an
integer, is skipped without error: removing it from anywhere in the pending
list leaves the resulting document and detail list of the whole pass
unchanged, and the remaining corrections are still processed. -/
theorem claim_C7_thm (doc : Document) (c : Correction) (l1 l2 : List Correction)
    (h : (c.slide_number - 1 < 0 ∨ (doc.slides.length : Int) ≤ c.slide_number - 1) ∨
         (c.correction_type = "alignment" ∧ pyToInt c.corrected_text = none)) :
    applyAllCorrectionsDoc doc (l1 ++ c :: l2) = applyAllCorrectionsDoc doc (l1 ++ l2) := by
  rcases h with hrange | ⟨hty, hparse⟩
  · exact applyAllCorrectionsDoc_skip_len c doc.slides.length
      (fun doc' hlen => applyCorrectionToDoc_skip_range doc' c (by rw [hlen]; exact hrange))
      l1 l2 doc rfl
  · exact applyAllCorrectionsDoc_skip_len c doc.slides.length
      (fun doc' _ => applyCorrectionToDoc_skip_align doc' c hty hparse)
      l1 l2 doc rfl

def corrOOR : Correction := ⟨99, "Body", "Teh", "the", "spelling", "typo"⟩

def corrBadAlign : Correction := ⟨1, "Body", "x", "not-an-int", "alignment", "r"⟩

/-- Witness for C7: an out-of-range correction (slide 99 of a 1-slide
document) and an alignment correction with an unparsable value are both
skipped while the rest of the list is still applied. -/
theorem claim_C7_wit :
    applyAllCorrectionsDoc docC4 ([] ++ corrOOR :: [corrC4]) =
      applyAllCorrectionsDoc docC4 ([] ++ [corrC4]) ∧
    applyAllCorrectionsDoc docC4 ([corrC4] ++ corrBadAlign :: []) =
      applyAllCorrectionsDoc docC4 ([corrC4] ++ []) :=
  ⟨claim_C7_thm docC4 corrOOR [] [corrC4] (Or.inl (Or.inr (by decide))),
   claim_C7_thm docC4 corrBadAlign [corrC4] [] (Or.inr ⟨rfl, by decide⟩)⟩


/- ## Claim C8 -/

def docC8 : Document :=
  ⟨[⟨[⟨"Title", 250, true, []⟩]⟩, ⟨[⟨"Title", 250, true, []⟩]⟩,
    ⟨[⟨"Title", 100, true, []⟩]⟩, ⟨[⟨"Title", 100, true, []⟩]⟩]⟩

/-- C8, counterexample: with title left positions `[250, 250, 100, 100]`
the values 100 and 250 tie for the highest frequency, yet
`analyze_alignment` (and `find_most_common_position`) pick 250 — the
first-encountered tied value, not the smallest numeric value 100. -/
theorem claim_C8_cex :
    countVal 100 [250, 250, 100, 100] = 2 ∧
    countVal 250 [250, 250, 100, 100] = 2 ∧
    (∀ v ∈ [(250 : Int), 250, 100, 100], countVal v [250, 250, 100, 100] ≤ 2) ∧
    (100 : Int) < 250 ∧
    (collectTitles docC8).map (fun t => t.left) = [250, 250, 100, 100] ∧
    tool_analyze_alignment docC8 =
      .report 250 [⟨3, "Title", 100⟩, ⟨4, "Title", 100⟩] ∧
    find_most_common_position [250, 250, 100, 100] = some 250 := by
  refine ⟨rfl, rfl, ?_, by decide, by decide, by decide, by decide⟩
  decide

/-- C8 (amended): whenever the document has at least one title shape, the
standard left position reported by `analyze_alignment` (equal to
`find_most_common_position` of the title lefts) is deterministic: it occurs
among the title lefts, attains the maximal occurrence count and, among the
values tied at that count, is the one whose first occurrence in collection
order comes earliest — not the numerically smallest. -/
theorem claim_C8_thm (doc : Document) (h : collectTitles doc ≠ []) :
    ∃ std : Int,
      tool_analyze_alignment doc =
        .report std ((collectTitles doc).filter (fun t => t.left ≠ std)) ∧
      find_most_common_position ((collectTitles doc).map (fun t => t.left)) = some std ∧
      std ∈ (collectTitles doc).map (fun t => t.left) ∧
      (∀ v ∈ (collectTitles doc).map (fun t => t.left),
        countVal v ((collectTitles doc).map (fun t => t.left)) ≤
          countVal std ((collectTitles doc).map (fun t => t.left))) ∧
      (∀ v ∈ (collectTitles doc).map (fun t => t.left),
        countVal v ((collectTitles doc).map (fun t => t.left)) =
          countVal std ((collectTitles doc).map (fun t => t.left)) →
        firstIdx std ((collectTitles doc).map (fun t => t.left)) ≤
          firstIdx v ((collectTitles doc).map (fun t => t.left))) := by
  have hie : (collectTitles doc).isEmpty = false := by
    cases hcol : collectTitles doc with
    | nil => exact absurd hcol h
    | cons a t => rfl
  have hlne : (collectTitles doc).map (fun t => t.left) ≠ [] := by
    intro hmap
    exact h (List.map_eq_nil_iff.mp hmap)
  have hiem : ((collectTitles doc).map (fun t => t.left)).isEmpty = false := by
    cases hm : (collectTitles doc).map (fun t => t.left) with
    | nil => exact absurd hm hlne
    | cons a t => rfl
  obtain ⟨x, hx⟩ : ∃ x, x ∈ (collectTitles doc).map (fun t => t.left) := by
    cases hm : (collectTitles doc).map (fun t => t.left) with
    | nil => exact absurd hm hlne
    | cons a t => exact ⟨a, hm.symm ▸ List.mem_cons_self a t⟩
  have hinv := buildCounts_inv ((collectTitles doc).map (fun t => t.left))
  have hkey : x ∈ (buildCounts [] ((collectTitles doc).map (fun t => t.left))).map Prod.fst :=
    (hinv.2.1 x).mpr hx
  cases hcs : buildCounts [] ((collectTitles doc).map (fun t => t.left)) with
  | nil =>
    rw [hcs] at hkey
    simp at hkey
  | cons e0 rest0 =>
    obtain ⟨hmem, hmax, hfirst⟩ :=
      mostCommon_spec ((collectTitles doc).map (fun t => t.left)) e0 rest0 hcs
    refine ⟨(maxByCount e0 rest0).1, ?_, ?_, hmem, hmax, hfirst⟩
    · unfold tool_analyze_alignment
      rw [if_neg (by rw [hie]; decide)]
      simp only [hcs]
    · unfold find_most_common_position
      rw [if_neg (by rw [hiem]; decide)]
      simp only [hcs]

/-- Witness for C8 (amended) on the tied four-title document. -/
theorem claim_C8_wit :
    ∃ std : Int,
      tool_analyze_alignment docC8 =
        .report std ((collectTitles docC8).filter (fun t => t.left ≠ std)) ∧
      find_most_common_position ((collectTitles docC8).map (fun t => t.left)) = some std ∧
      std ∈ (collectTitles docC8).map (fun t => t.left) ∧
      (∀ v ∈ (collectTitles docC8).map (fun t => t.left),
        countVal v ((collectTitles docC8).map (fun t => t.left)) ≤
          countVal std ((collectTitles docC8).map (fun t => t.left))) ∧
      (∀ v ∈ (collectTitles docC8).map (fun t => t.left),
        countVal v ((collectTitles docC8).map (fun t => t.left)) =
          countVal std ((collectTitles docC8).map (fun t => t.left)) →
        firstIdx std ((collectTitles docC8).map (fun t => t.left)) ≤
          firstIdx v ((collectTitles docC8).map (fun t => t.left))) :=
  claim_C8_thm docC8 (by decide)

/- ## Claim C9 -/

/-- C9: a successful `apply_all_corrections` pass over a non-empty pending
list appends every formerly pending correction to `applied_corrections`
(whether or not it matched any slide or shape), while the reported
`corrections_applied` count is the length of the per-edit detail list (one
entry per shape-left change or per run replacement); on a concrete state
whose only pending correction matches nothing the reported count is 0 while
`applied_corrections` has length 1, so the two can differ. -/
theorem claim_C9_thm :
    (∀ (env : Env) (st : AgentState) (fs : FS) (doc : Document),
      st.pending_corrections ≠ [] → env.saveOk = true →
      fsLookup fs st.presentation_path = some doc →
      ∃ st' fs', tool_apply_all_corrections env st fs =
          .ok (st', fs',
            .applySuccess (applyAllCorrectionsDoc doc st.pending_corrections).2.length
              (applyAllCorrectionsDoc doc st.pending_corrections).2 st.output_path) ∧
        st'.applied_corrections = st.applied_corrections ++ st.pending_corrections ∧
        st'.pending_corrections = []) ∧
    (∃ (env : Env) (st st' : AgentState) (fs fs' : FS) (n : Nat)
       (dets : List AppliedDetail) (out : String),
      tool_apply_all_corrections env st fs = .ok (st', fs', .applySuccess n dets out) ∧
      n ≠ st'.applied_corrections.length) := by
  constructor
  · intro env st fs doc hp hsave hdoc
    unfold tool_apply_all_corrections
    rw [if_neg hp]
    simp only [hdoc]
    rw [if_pos hsave]
    exact ⟨_, _, rfl, rfl, rfl⟩
  · refine ⟨envW, stC2, _, [("in.pptx", docEmpty)], _, 0, [], "out.pptx", rfl, ?_⟩
    decide

/-- Witness for C9 at a concrete state: the only pending correction targets
slide 1 of an empty document, so it performs no edit; the reported count is
0 but the correction is still transferred to `applied_corrections`. -/
theorem claim_C9_wit :
    ∃ st' fs', tool_apply_all_corrections envW stC2 [("in.pptx", docEmpty)] =
        .ok (st', fs',
          .applySuccess (applyAllCorrectionsDoc docEmpty stC2.pending_corrections).2.length
            (applyAllCorrectionsDoc docEmpty stC2.pending_corrections).2 stC2.output_path) ∧
      st'.applied_corrections = stC2.applied_corrections ++ stC2.pending_corrections ∧
      st'.pending_corrections = [] :=
  claim_C9_thm.1 envW stC2 [("in.pptx", docEmpty)] docEmpty (by decide) rfl rfl

/- ## Claim C10 -/

/-- C10: a tool-call request whose name is not a key of the registry makes
the loop append a tool-error result to the transcript keyed to that call's
identifier — no exception is raised — and execution continues with the
remaining calls (and hence with the next iteration). -/
theorem claim_C10_thm (env : Env) (tc : ToolCall) (rest : List ToolCall)
    (st : AgentState) (fs : FS) (h : tc.fname ∉ toolNames) :
    dispatch env tc st fs = .ok (st, fs, .toolNotFound tc.fname) ∧
    execCalls env (tc :: rest) st fs =
      execCalls env rest
        { st with messages := st.messages ++ [toolMsg tc.id (.toolNotFound tc.fname)] } fs := by
  have hd : dispatch env tc st fs = .ok (st, fs, .toolNotFound tc.fname) := by
    unfold dispatch
    rw [if_neg h]
  refine ⟨hd, ?_⟩
  simp only [execCalls, hd]

/-- Witness for C10 with the unregistered tool name `"bogus_tool"`. -/
theorem claim_C10_wit :
    dispatch envW ⟨"call_7", "bogus_tool", []⟩ (initState "a.pptx" "b.pptx") [] =
      .ok (initState "a.pptx" "b.pptx", [], .toolNotFound "bogus_tool") ∧
    execCalls envW [⟨"call_7", "bogus_tool", []⟩] (initState "a.pptx" "b.pptx") [] =
      execCalls envW []
        { initState "a.pptx" "b.pptx" with
            messages := (initState "a.pptx" "b.pptx").messages ++
              [toolMsg "call_7" (.toolNotFound "bogus_tool")] } [] :=
  claim_C10_thm envW ⟨"call_7", "bogus_tool", []⟩ [] (initState "a.pptx" "b.pptx") []
    (by decide)

end Pptx

